import Mathlib

/-!
Verification of the firestore-orm core against its specification.

The development shallowly embeds the relevant parts of the source:
* `src/fields.js` (the per-attribute field runtime — `__Field`, `NumberField`),
* `src/models.js` (the compound-key codec — `__encodeCompoundValue`,
  `__decodeCompoundValue` and the `stableStringify` canonical JSON writer
  they rely on),
* `src/context.js` (the transactional context — tracked-document table,
  `get`/`create`/`delete`/`updateWithoutRead`, commit-time writes, and the
  retry loop `__run`).

JavaScript numbers are modelled as exact rationals (for field arithmetic)
and as arbitrary-precision integers (for key-component values); fallible
operations return `Except`; the mutation of `this` in the source becomes
explicit state passing.
-/

namespace FirestoreOrm

/-! ## Field runtime (src/fields.js) -/

/-- Errors raised by the field runtime. `invalidField` carries the field
name, mirroring `InvalidFieldError(field, reason)`; `invalidOptions`
mirrors `InvalidOptionsError`; `assertionFailed` models a failing
`assert.ok` in the source. -/
inductive FieldErr where
  | invalidField (fieldName : String)
  | invalidOptions (optName : String)
  | assertionFailed
deriving DecidableEq

/-- Compiled field options, as produced by `__Field.__validateFieldOptions`:
`{ isKey, schema, optional, immutable, default, assertValid }`. The
external schema library validator (`assertValid`) is kept abstract as a
boolean predicate on values. -/
structure FieldOpts (α : Type) where
  isKey : Bool
  optional : Bool
  immutable : Bool
  defaultVal : Option α
  assertValid : α → Bool

/-- The input descriptor, i.e. the data `__validateFieldOptions` reads off
the Todea schema: the compiled JSON schema `readOnly` flag, whether the
schema is required, its `default` property, and its validator. -/
structure SchemaIn (α : Type) where
  readOnlyProp : Option Bool
  required : Bool
  defaultProp : Option α
  assertValid : α → Bool

/-- The check `fieldName.startsWith` of an underscore performed by
`__validateFieldOptions`. -/
def startsWithUnderscore (s : String) : Bool :=
  s.data.head? = some '_'

/-- `validateValue(fieldName, opts, val)` from `src/utils.js`: an omitted
value passes iff the field is optional; otherwise the value must pass the
schema validator. (The source also returns the JS value type; the codec
section models that part.) -/
def validateValue {α : Type} (fieldName : String) (opts : FieldOpts α)
    (val : Option α) : Except FieldErr Unit :=
  match val with
  | none => if opts.optional then .ok () else .error (.invalidField fieldName)
  | some v =>
    if opts.assertValid v then .ok () else .error (.invalidField fieldName)

/-- `__Field.__validateFieldOptions(modelName, isKey, fieldName, schema)`:
compiles a descriptor into `FieldOpts`, rejecting leading-underscore
names, keys with defaults, keys explicitly marked writable, optional keys,
and defaults that fail their own validator. `immutable` is
`isKey || jsonSchema.readOnly === true`. -/
def validateFieldOptions {α : Type} (isKey : Bool) (fieldName : String)
    (schema : SchemaIn α) : Except FieldErr (FieldOpts α) :=
  if startsWithUnderscore fieldName then .error (.invalidField fieldName)
  else
    let options : FieldOpts α :=
      { isKey := isKey
        optional := schema.required = false
        immutable := isKey || schema.readOnlyProp = some true
        defaultVal := schema.defaultProp
        assertValid := schema.assertValid }
    let hasDefault := schema.defaultProp.isSome
    if isKey ∧ hasDefault then .error (.invalidOptions ("default"))
    else if isKey ∧ schema.readOnlyProp = some false then
      .error (.invalidOptions ("immutable"))
    else if isKey ∧ options.optional then .error (.invalidOptions ("optional"))
    else if hasDefault then
      match validateValue fieldName options schema.defaultProp with
      | .error e => .error e
      | .ok _ => .ok options
    else .ok options

/-- The state of a `__Field`: current value, the value observed in the
database (`__initialValue`), the accessed/written flags, and the
construction-time bookkeeping flags. -/
structure FieldState (α : Type) where
  name : String
  opts : FieldOpts α
  value : Option α
  readInitialValue : Bool
  written : Bool
  initialValue : Option α
  useDefault : Bool
  isForUpdate : Bool

/-- The `__Field` constructor: decides whether the default applies, sets
the current and initial values, and validates (except for keys, applied
defaults, and values omitted from a blind update). -/
def mkField {α : Type} (name : String) (opts : FieldOpts α) (val : Option α)
    (valIsFromDB valSpecified isForUpdate : Bool) :
    Except FieldErr (FieldState α) :=
  if valSpecified = false ∧ val.isSome then .error .assertionFailed
  else
    let useDefault : Bool :=
      if valSpecified then false
      else if opts.defaultVal.isNone then false
      else if valIsFromDB ∧ opts.optional then false
      else true
    let value := if useDefault then opts.defaultVal else val
    let f : FieldState α :=
      { name := name, opts := opts, value := value
        readInitialValue := false, written := false
        initialValue := if valIsFromDB then val else none
        useDefault := useDefault
        isForUpdate := valSpecified ∧ isForUpdate }
    if ¬opts.isKey ∧ ¬useDefault ∧ (valSpecified ∨ ¬isForUpdate) then
      match validateValue name opts value with
      | .error e => .error e
      | .ok _ => .ok f
    else .ok f

/-- `__Field.get()`: returns the current value, marking the initial value
as read unless the field was already written. -/
def FieldState.get {α : Type} (f : FieldState α) : Option α × FieldState α :=
  if f.written = false then (f.value, { f with readInitialValue := true })
  else (f.value, f)

/-- `__Field.set(val)`: immutable fields always raise `InvalidField`;
otherwise the value is stored and `written` set, and if validation fails
both are restored before the error propagates. -/
def FieldState.set {α : Type} (f : FieldState α) (val : Option α) :
    Except FieldErr Unit × FieldState α :=
  if f.opts.immutable then (.error (.invalidField f.name), f)
  else
    let f1 : FieldState α := { f with value := val, written := true }
    match validateValue f.name f.opts val with
    | .ok _ => (.ok (), f1)
    | .error e => (.error e, { f1 with value := f.value, written := f.written })

/-- `__Field.mutated`: whether the current value differs from the initial
value. -/
def FieldState.mutated {α : Type} [DecidableEq α] (f : FieldState α) : Bool :=
  f.value ≠ f.initialValue

/-- `__Field.accessed`: the field was read or written by the application. -/
def FieldState.accessed {α : Type} (f : FieldState α) : Bool :=
  f.readInitialValue || f.written

/-- `__Field.__mayHaveMutated`: quick heuristic — accessed, or initialized
with a value while absent from the database. -/
def FieldState.mayHaveMutated {α : Type} (f : FieldState α) : Bool :=
  f.accessed || (f.initialValue.isNone && f.value.isSome)

/-- `__BaseField.hasChangesToCommit(expectWrites)`: updates always count;
otherwise mutation counts unless it is only a default applied in a
read-only context. -/
def FieldState.hasChangesToCommit {α : Type} [DecidableEq α]
    (f : FieldState α) (expectWrites : Bool) : Bool :=
  if f.isForUpdate then true
  else
    let initDefault := !expectWrites && f.useDefault && !f.written
    f.mutated && !initDefault

/-- The state of a `NumberField`: the base field plus the increment
accumulator `__diff`, the `__mustUseSet` flag, and the captured base value
`__base`. Numeric values are modelled as rationals. -/
structure NumberFieldState extends FieldState ℚ where
  diff : Option ℚ
  mustUseSet : Bool
  base : Option ℚ

/-- The `NumberField` constructor: runs the base constructor, then captures
`__base` as the initial value if defined, else the construction value if
defined, else leaves it absent (increments will then be invalid). -/
def mkNumberField (name : String) (opts : FieldOpts ℚ) (val : Option ℚ)
    (valIsFromDB valSpecified isForUpdate : Bool) :
    Except FieldErr NumberFieldState :=
  match mkField name opts val valIsFromDB valSpecified isForUpdate with
  | .error e => .error e
  | .ok f =>
    let base : Option ℚ :=
      match f.initialValue with
      | some b => some b
      | none =>
        match f.value with
        | some v => some v
        | none => none
    .ok { toFieldState := f, diff := none, mustUseSet := false, base := base }

/-- `NumberField.set(val)`: the base-class set, then (only on success)
discard the accumulated diff and force future writes to use set. -/
def NumberFieldState.set (f : NumberFieldState) (val : Option ℚ) :
    Except FieldErr Unit × NumberFieldState :=
  match f.toFieldState.set val with
  | (.ok _, f1) =>
    (.ok (), { f with toFieldState := f1, diff := none, mustUseSet := true })
  | (.error e, f1) => (.error e, { f with toFieldState := f1 })

/-- `NumberField.__sumIfValid(fromBase, diff)`: adds the diff to `__base`
or to the current value; raises `InvalidField` when that operand is
absent. -/
def NumberFieldState.sumIfValid (f : NumberFieldState) (fromBase : Bool)
    (d : ℚ) : Except FieldErr ℚ :=
  let b := if fromBase then f.base else f.value
  match b with
  | none => .error (.invalidField f.name)
  | some x => .ok (x + d)

/-- `NumberField.incrementBy(diff)`: accumulates a diff when the field was
never read nor directly set; otherwise falls back to a plain `set` of the
sum with the current value. -/
def NumberFieldState.incrementBy (f : NumberFieldState) (d : ℚ) :
    Except FieldErr Unit × NumberFieldState :=
  let newDiff : ℚ :=
    match f.diff with
    | none => d
    | some x => x + d
  if f.readInitialValue || f.mustUseSet then
    match f.sumIfValid false newDiff with
    | .error e => (.error e, f)
    | .ok s => f.set (some s)
  else
    match f.sumIfValid true newDiff with
    | .error e => (.error e, f)
    | .ok s =>
      match f.toFieldState.set (some s) with
      | (.ok _, f1) =>
        (.ok (), { f with toFieldState := f1, diff := some newDiff })
      | (.error e, f1) => (.error e, { f with toFieldState := f1 })

/-- `NumberField.canUpdateWithIncrement`: a diff exists, the field had a
database value, and the initial value was never read. -/
def NumberFieldState.canUpdateWithIncrement (f : NumberFieldState) : Bool :=
  f.diff.isSome && f.initialValue.isSome && !f.readInitialValue

/-! ## Context: retry loop (src/context.js, `Context.__run`) -/

/-- A driver-level error after classification by `parseFirestoreError`:
only the retryability marker and an identifying code matter to the retry
loop. -/
structure DriverErr where
  retryable : Bool
  code : ℕ
deriving DecidableEq

/-- The outcome of one attempt of `__tryToRun` (the closure plus the
commit). -/
inductive RunOutcome (α : Type) where
  | success (v : α)
  | failure (e : DriverErr)
deriving DecidableEq

/-- The error surfaced by `__run`: either the classified error rethrown
unchanged (non-retryable case) or a `TransactionFailedError` wrapping the
last error after retries are exhausted. -/
inductive RunErr where
  | raw (e : DriverErr)
  | transactionFailed (last : DriverErr)
deriving DecidableEq

/-- Lifecycle events emitted by the context. -/
inductive RunEvent where
  | postCommit
  | txFailed (e : RunErr)
deriving DecidableEq

/-- The observable trace of one `__run` invocation. -/
structure RunLog (α : Type) where
  result : Except RunErr α
  attemptsMade : ℕ
  sleeps : List ℚ
  events : List RunEvent

/-- Options consumed by the retry loop (`retries`, `initialBackoff`,
`maxBackoff`, all in milliseconds). -/
structure RunOpts where
  retries : ℕ
  initialBackoff : ℚ
  maxBackoff : ℚ
deriving DecidableEq

/-- The jitter added to one backoff delay:
`Math.floor(Math.random() * millisBackOff * 0.2) - millisBackOff * 0.1`,
with the random draw `r` in `[0, 1)`. -/
def jitterOffset (r backoff : ℚ) : ℚ :=
  ((Int.floor (r * backoff * (1 / 5)) : ℤ) : ℚ) - backoff * (1 / 10)

/-- The loop body of `Context.__run`: `remaining` counts the retries still
allowed (`retries - tryCnt` in the source, so the `tryCnt >= retries`
test becomes `remaining = 0`), `attempts` gives the outcome of each
attempt and `rand` the random draw used for the jitter of each sleep.
On success `POST_COMMIT` is emitted; a non-retryable error is emitted and
rethrown as is; a retryable error with no retries left is wrapped in
`TransactionFailedError`, emitted with `TX_FAILED` and thrown; otherwise
the loop sleeps `backoff + jitter` and doubles the backoff, capping it at
`maxBackoff`. -/
def runAttempts {α : Type} (attempts : ℕ → RunOutcome α) (rand : ℕ → ℚ)
    (maxBackoff : ℚ) : (remaining tryCnt : ℕ) → (backoff : ℚ) → RunLog α
  | remaining, tryCnt, backoff =>
    match attempts tryCnt with
    | .success v =>
      { result := .ok v, attemptsMade := tryCnt + 1, sleeps := []
        events := [.postCommit] }
    | .failure e =>
      if e.retryable = false then
        { result := .error (.raw e), attemptsMade := tryCnt + 1, sleeps := []
          events := [.txFailed (.raw e)] }
      else
        match remaining with
        | 0 =>
          { result := .error (.transactionFailed e), attemptsMade := tryCnt + 1
            sleeps := [], events := [.txFailed (.transactionFailed e)] }
        | r + 1 =>
          let delay := backoff + jitterOffset (rand tryCnt) backoff
          let rest := runAttempts attempts rand maxBackoff r (tryCnt + 1)
            (min maxBackoff (2 * backoff))
          { result := rest.result, attemptsMade := rest.attemptsMade
            sleeps := delay :: rest.sleeps, events := rest.events }

/-- `Context.__run(func)` with the given options: starts at attempt 0 with
the initial backoff. -/
def contextRun {α : Type} (opts : RunOpts) (attempts : ℕ → RunOutcome α)
    (rand : ℕ → ℚ) : RunLog α :=
  runAttempts attempts rand opts.maxBackoff opts.retries 0 opts.initialBackoff

/-- The backoff base used before the `i`-th retry: starts at
`initialBackoff` and doubles after each retry, capped at `maxBackoff`. -/
def backoffSeq (opts : RunOpts) : ℕ → ℚ
  | 0 => opts.initialBackoff
  | n + 1 => min opts.maxBackoff (2 * backoffSeq opts n)

/-- Helper mirroring `backoffSeq` but advancing from an arbitrary current
backoff, matching the recursion structure of `runAttempts`. -/
def backoffFrom (maxBackoff : ℚ) : ℚ → ℕ → ℚ
  | b, 0 => b
  | b, n + 1 => backoffFrom maxBackoff (min maxBackoff (2 * b)) n

/-! ## Context: tracked-document table (src/context.js) -/

/-- Errors raised by the context operations. -/
inductive CtxErr where
  | modelTrackedTwice
  | deletedTwice
  | writeAttemptedInReadOnlyTx
  | invalidParameter
  | genericModel
deriving DecidableEq

/-- The canonical document path (`docRef.path`): collection name plus
encoded document id. -/
structure DocPath where
  collection : String
  docId : String
deriving DecidableEq

/-- A tracked model instance as far as the tracking table is concerned:
its identity (`instId` models JS object identity), whether it is new, and
its key path. -/
structure CModel where
  instId : ℕ
  isNew : Bool
  path : DocPath
deriving DecidableEq

/-- One slot of `__trackedModelsList`: a live model, the sentinel
`undefined` (fetched but absent), or the sentinel `null` (deleted). -/
inductive Slot where
  | live (m : CModel)
  | absent
  | deleted
deriving DecidableEq

/-- The context-local tracking state: `paths` is `__trackedModelsMap`
(document path to slot index), `slots` is `__trackedModelsList`, and
`nextId` generates fresh model identities. -/
structure TrackSt where
  nextId : ℕ
  paths : List (DocPath × ℕ)
  slots : List Slot
deriving DecidableEq

/-- Lookup of a document path in `__trackedModelsMap`. -/
def pathLookup (l : List (DocPath × ℕ)) (p : DocPath) : Option ℕ :=
  match l with
  | [] => none
  | q :: t => if q.1 = p then some q.2 else pathLookup t p

/-- The slot currently tracked for a path, if any. -/
def slotOf (st : TrackSt) (p : DocPath) : Option Slot :=
  (pathLookup st.paths p).map (fun i => st.slots.getD i .absent)

/-- `Context.__watchForChangesToSave(model, key)`: raises
`ModelTrackedTwice` when the path already holds a live model; replaces the
sentinel slot (fetched-absent or deleted) otherwise; appends a fresh slot
when the path is untracked. `s` is the slot value to store (`live m` when
a model is given, `absent` when only a key is given). -/
def watchForChangesToSave (st : TrackSt) (p : DocPath) (s : Slot) :
    Except CtxErr TrackSt :=
  match pathLookup st.paths p with
  | some idx =>
    match st.slots.getD idx .absent with
    | .live _ => .error .modelTrackedTwice
    | _ => .ok { st with slots := st.slots.set idx s }
  | none =>
    .ok { st with paths := st.paths ++ [(p, st.slots.length)],
                  slots := st.slots ++ [s] }

/-- `Context.create(Cls, data)`: constructs a fresh model (`isNew = true`)
and tracks it via `__watchForChangesToSave`; note that it never consults
the `cacheModels` option. -/
def ctxCreate (st : TrackSt) (p : DocPath) : Except CtxErr (CModel × TrackSt) :=
  let m : CModel := { instId := st.nextId, isNew := true, path := p }
  match watchForChangesToSave { st with nextId := st.nextId + 1 } p (.live m) with
  | .error e => .error e
  | .ok st2 => .ok (m, st2)

/-- `Context.__gotItem(key, params, doc)`: if the document is missing and
`createIfMissing` was not requested, track a fetched-absent sentinel and
return nothing; otherwise construct a model (`isNew` iff the document was
missing) and track it. The driver is a predicate telling which paths
exist. -/
def gotItem (driver : DocPath → Bool) (createIfMissing : Bool) (st : TrackSt)
    (p : DocPath) : Except CtxErr (Option CModel) × TrackSt :=
  let isNew := !driver p
  if isNew ∧ ¬createIfMissing then
    match watchForChangesToSave st p .absent with
    | .error e => (.error e, st)
    | .ok st2 => (.ok none, st2)
  else
    let m : CModel := { instId := st.nextId, isNew := isNew, path := p }
    match watchForChangesToSave { st with nextId := st.nextId + 1 } p (.live m) with
    | .error e => (.error e, st)
    | .ok st2 => (.ok (some m), st2)

/-- `Context.get` restricted to its single-key form: an already-tracked
path raises `ModelTrackedTwice` unless `cacheModels` is on, in which case
the cached slot is returned (refetching only a fetched-absent slot when
`createIfMissing` is requested); an untracked path is fetched from the
driver and tracked. -/
def ctxGet (cacheModels : Bool) (driver : DocPath → Bool)
    (createIfMissing : Bool) (st : TrackSt) (p : DocPath) :
    Except CtxErr (Option CModel) × TrackSt :=
  match pathLookup st.paths p with
  | some idx =>
    let cached := st.slots.getD idx .absent
    if cacheModels = false then (.error .modelTrackedTwice, st)
    else if cached = .absent ∧ createIfMissing then
      gotItem driver createIfMissing st p
    else
      match cached with
      | .live m => (.ok (some m), st)
      | _ => (.ok none, st)
  | none => gotItem driver createIfMissing st p

/-- A driver write effect issued by the context. -/
inductive WriteEff where
  | deleteDoc (p : DocPath)
  | createDoc (p : DocPath)
  | setDoc (p : DocPath)
  | updateDoc (p : DocPath)
deriving DecidableEq

/-- The deletion of a single target inside `Context.delete`: an
already-deleted slot raises `DeletedTwice`; otherwise the slot is marked
deleted (inserted fresh if untracked) and the driver delete is issued. -/
def deleteOne (st : TrackSt) (p : DocPath) :
    Except CtxErr (TrackSt × WriteEff) :=
  match pathLookup st.paths p with
  | some idx =>
    if st.slots.getD idx .absent = .deleted then .error .deletedTwice
    else .ok ({ st with slots := st.slots.set idx .deleted }, .deleteDoc p)
  | none =>
    .ok ({ st with paths := st.paths ++ [(p, st.slots.length)],
                   slots := st.slots ++ [.deleted] }, .deleteDoc p)

/-- The per-target loop of `Context.delete`; returns the driver effects
issued before any error. -/
def deleteLoop (st : TrackSt) : List DocPath →
    Except CtxErr TrackSt × List WriteEff
  | [] => (.ok st, [])
  | p :: rest =>
    match deleteOne st p with
    | .error e => (.error e, [])
    | .ok (st2, eff) =>
      match deleteLoop st2 rest with
      | (r, effs) => (r, eff :: effs)

/-- `Context.delete(...keys)`: `__throwIfWritesNotAllowed` runs first, so a
read-only context raises `WriteAttemptedInReadOnlyTx` before any tracking
or driver delete happens. -/
def ctxDelete (readOnly : Bool) (st : TrackSt) (ps : List DocPath) :
    Except CtxErr TrackSt × List WriteEff :=
  if readOnly then (.error .writeAttemptedInReadOnlyTx, [])
  else deleteLoop st ps

/-- The data `Model.__writeHelper` needs about a model: its path, the
`isNew` / `__isSet` flags, and whether the collected write data is
nonempty. -/
structure WModel where
  path : DocPath
  isNew : Bool
  isSet : Bool
  hasData : Bool
deriving DecidableEq

/-- `Model.__writeHelper(ctx)`: new models are written with `set` (replace)
or `create` (fail on existing); existing models are updated, raising
`GenericModelError` when no data changed. -/
def writeModel (m : WModel) : Except CtxErr WriteEff :=
  if m.isNew then
    if m.isSet then .ok (.setDoc m.path) else .ok (.createDoc m.path)
  else if m.hasData = false then .error .genericModel
  else .ok (.updateDoc m.path)

/-- `Context.updateWithoutRead(Cls, data)`: the model is constructed first
(which may itself fail validation), then `__throwIfWritesNotAllowed`
runs, then the write is dispatched. -/
def ctxUpdateWithoutRead (readOnly : Bool)
    (constructed : Except CtxErr WModel) :
    Except CtxErr Unit × List WriteEff :=
  match constructed with
  | .error e => (.error e, [])
  | .ok m =>
    if readOnly then (.error .writeAttemptedInReadOnlyTx, [])
    else
      match writeModel m with
      | .error e => (.error e, [])
      | .ok eff => (.ok (), [eff])

/-- A tracked model as `__saveChangedModels` sees it: the write-relevant
data plus the two possible results of `__isMutated(expectWrites)`. -/
structure SModel where
  w : WModel
  mutIfExpectWrites : Bool
  mutIfReadOnlyCtx : Bool
deriving DecidableEq

/-- The save condition of `__saveChangedModels`:
`model.isNew || model.__isMutated(!readOnly)`. -/
def needsSave (readOnly : Bool) (m : SModel) : Bool :=
  m.w.isNew || (if readOnly then m.mutIfReadOnlyCtx else m.mutIfExpectWrites)

/-- `Context.__saveChangedModels()`: walks the tracked slots in insertion
order (sentinel slots are `none` here); for each model needing a write,
`__throwIfWritesNotAllowed` runs before the write is dispatched. -/
def saveChangedModels (readOnly : Bool) : List (Option SModel) →
    Except CtxErr Unit × List WriteEff
  | [] => (.ok (), [])
  | none :: rest => saveChangedModels readOnly rest
  | some m :: rest =>
    if needsSave readOnly m then
      if readOnly then (.error .writeAttemptedInReadOnlyTx, [])
      else
        match writeModel m.w with
        | .error e => (.error e, [])
        | .ok eff =>
          match saveChangedModels readOnly rest with
          | (r, effs) => (r, eff :: effs)
    else saveChangedModels readOnly rest

/-! ## Key codec (src/models.js, `__encodeCompoundValue` /
`__decodeCompoundValue`, and the `fast-json-stable-stringify` writer) -/

/-- A JSON-representable JavaScript value, as stored in key components:
strings, numbers (modelled as arbitrary-precision integers), booleans,
arrays and plain objects (association lists; JS objects never repeat a
key). -/
inductive TVal where
  | s (v : String)
  | i (v : Int)
  | b (v : Bool)
  | arr (elems : List TVal)
  | obj (fields : List (String × TVal))

/-- The NUL character used as the compound-key separator. -/
def nulChar : Char := Char.ofNat 0

/-- The double-quote character. -/
def quoteChar : Char := Char.ofNat 34

/-- The backslash character. -/
def bslashChar : Char := Char.ofNat 92

/-- The opening bracket of a JSON array. -/
def lbrackChar : Char := Char.ofNat 91

/-- The closing bracket of a JSON array. -/
def rbrackChar : Char := Char.ofNat 93

/-- The opening brace of a JSON object. -/
def lbraceChar : Char := Char.ofNat 123

/-- The closing brace of a JSON object. -/
def rbraceChar : Char := Char.ofNat 125

/-- The comma separator. -/
def commaChar : Char := Char.ofNat 44

/-- The colon separator. -/
def colonChar : Char := Char.ofNat 58

/-- The minus sign. -/
def minusChar : Char := Char.ofNat 45

/-- The decimal digit character for `d < 10`. -/
def digitChar (d : ℕ) : Char := Char.ofNat (48 + d)

/-- The lowercase hexadecimal digit character for `d < 16`, as used by
`JSON.stringify` in `\u00xx` escapes. -/
def hexDigitChar (d : ℕ) : Char :=
  if d < 10 then Char.ofNat (48 + d) else Char.ofNat (87 + d)

/-- How `JSON.stringify` escapes a single character inside a string
literal: quote, backslash and the named control characters get two-letter
escapes, other control characters get a `\u00xx` escape, everything else
is emitted verbatim. -/
def escapeChar (c : Char) : List Char :=
  if c = quoteChar then [bslashChar, quoteChar]
  else if c = bslashChar then [bslashChar, bslashChar]
  else if c = Char.ofNat 8 then [bslashChar, 'b']
  else if c = Char.ofNat 9 then [bslashChar, 't']
  else if c = Char.ofNat 10 then [bslashChar, 'n']
  else if c = Char.ofNat 12 then [bslashChar, 'f']
  else if c = Char.ofNat 13 then [bslashChar, 'r']
  else if c.toNat < 32 then
    [bslashChar, 'u', '0', '0', hexDigitChar (c.toNat / 16),
      hexDigitChar (c.toNat % 16)]
  else [c]

/-- The escaped body of a JSON string literal. -/
def renderStrBody (s : List Char) : List Char :=
  (s.map escapeChar).flatten

/-- A JSON string literal: quote, escaped body, quote. -/
def renderString (s : String) : List Char :=
  quoteChar :: renderStrBody s.data ++ [quoteChar]

/-- The little-endian base-10 digits of `n`, with explicit fuel (empty for
`n = 0`; total given `fuel ≥ n`). -/
def natDigitsRev (fuel : ℕ) (n : ℕ) : List ℕ :=
  match fuel with
  | 0 => []
  | f + 1 => if n = 0 then [] else n % 10 :: natDigitsRev f (n / 10)

/-- The decimal rendering of a natural number. -/
def renderNat (n : ℕ) : List Char :=
  if n = 0 then [digitChar 0]
  else ((natDigitsRev n n).reverse).map digitChar

/-- The decimal rendering of an integer, as `JSON.stringify` prints
integral JS numbers. -/
def renderInt (n : Int) : List Char :=
  if n < 0 then minusChar :: renderNat n.natAbs else renderNat n.toNat

/-- The key order used by `fast-json-stable-stringify`: pairs compared by
their key with the default (lexicographic) string comparator. -/
def keyLe (p q : String × TVal) : Prop := p.1 ≤ q.1

instance : DecidableRel keyLe := fun p q => by
  unfold keyLe
  infer_instance

instance : IsTotal (String × TVal) keyLe :=
  ⟨fun p q => le_total p.1 q.1⟩

instance : IsTrans (String × TVal) keyLe :=
  ⟨fun _ _ _ h1 h2 => le_trans h1 h2⟩

/-- Sorting of an object entry list by key, as done by
`Object.keys(node).sort()` in the stable stringifier. -/
def sortPairs (l : List (String × TVal)) : List (String × TVal) :=
  l.insertionSort keyLe

/-- Comma-joining of rendered fragments, as `Array.join` with a comma
separator. -/
def joinComma : List (List Char) → List Char
  | [] => []
  | [x] => x
  | x :: y :: rest => x ++ commaChar :: joinComma (y :: rest)

/-- `fast-json-stable-stringify(value)`: renders a canonical JSON string;
object keys are sorted lexicographically at every node. -/
def render : TVal → List Char
  | .s v => renderString v
  | .i n => renderInt n
  | .b true => ['t', 'r', 'u', 'e']
  | .b false => ['f', 'a', 'l', 's', 'e']
  | .arr l =>
    lbrackChar :: joinComma (l.attach.map (fun x => render x.1)) ++ [rbrackChar]
  | .obj l =>
    lbraceChar ::
      joinComma ((sortPairs l).attach.map
        (fun p => renderString p.1.1 ++ colonChar :: render p.1.2)) ++
      [rbraceChar]
termination_by v => sizeOf v
decreasing_by
  · have hx := List.sizeOf_lt_of_mem x.2
    simp only [TVal.arr.sizeOf_spec]
    omega
  · have hp : p.1 ∈ sortPairs l := p.2
    have hmem : p.1 ∈ l := ((List.perm_insertionSort keyLe l).mem_iff).mp hp
    have hx := List.sizeOf_lt_of_mem hmem
    have hsnd : sizeOf p.1.2 < sizeOf p.1 := by
      obtain ⟨a, c⟩ := p.1
      simp only [Prod.mk.sizeOf_spec]
      omega
    simp only [TVal.obj.sizeOf_spec]
    omega

/-- The canonical form a value assumes after a stringify / parse
round-trip: object entries sorted by key at every node. -/
def canon : TVal → TVal
  | .s v => .s v
  | .i n => .i n
  | .b x => .b x
  | .arr l => .arr (l.attach.map (fun x => canon x.1))
  | .obj l => .obj ((sortPairs l).attach.map (fun p => (p.1.1, canon p.1.2)))
termination_by v => sizeOf v
decreasing_by
  · have hx := List.sizeOf_lt_of_mem x.2
    simp only [TVal.arr.sizeOf_spec]
    omega
  · have hp : p.1 ∈ sortPairs l := p.2
    have hmem : p.1 ∈ l := ((List.perm_insertionSort keyLe l).mem_iff).mp hp
    have hx := List.sizeOf_lt_of_mem hmem
    have hsnd : sizeOf p.1.2 < sizeOf p.1 := by
      obtain ⟨a, c⟩ := p.1
      simp only [Prod.mk.sizeOf_spec]
      omega
    simp only [TVal.obj.sizeOf_spec]
    omega

/-- The numeric value of a lowercase hexadecimal digit character, if it is
one. -/
def hexVal (c : Char) : Option ℕ :=
  if 48 ≤ c.toNat ∧ c.toNat ≤ 57 then some (c.toNat - 48)
  else if 97 ≤ c.toNat ∧ c.toNat ≤ 102 then some (c.toNat - 87)
  else none

/-- Parsing of a JSON string body up to (and consuming) the closing
quote, undoing the escapes `JSON.stringify` produces. -/
def parseStrBody (cs : List Char) : Option (List Char × List Char) :=
  match cs with
  | [] => none
  | c :: rest =>
    if c = quoteChar then some ([], rest)
    else if c = bslashChar then
      match rest with
      | [] => none
      | e :: rest2 =>
        if e = quoteChar then
          (parseStrBody rest2).map (fun pr => (quoteChar :: pr.1, pr.2))
        else if e = bslashChar then
          (parseStrBody rest2).map (fun pr => (bslashChar :: pr.1, pr.2))
        else if e = 'b' then
          (parseStrBody rest2).map (fun pr => (Char.ofNat 8 :: pr.1, pr.2))
        else if e = 't' then
          (parseStrBody rest2).map (fun pr => (Char.ofNat 9 :: pr.1, pr.2))
        else if e = 'n' then
          (parseStrBody rest2).map (fun pr => (Char.ofNat 10 :: pr.1, pr.2))
        else if e = 'f' then
          (parseStrBody rest2).map (fun pr => (Char.ofNat 12 :: pr.1, pr.2))
        else if e = 'r' then
          (parseStrBody rest2).map (fun pr => (Char.ofNat 13 :: pr.1, pr.2))
        else if e = 'u' then
          match rest2 with
          | h1 :: h2 :: h3 :: h4 :: rest3 =>
            match hexVal h1, hexVal h2, hexVal h3, hexVal h4 with
            | some d1, some d2, some d3, some d4 =>
              (parseStrBody rest3).map (fun pr =>
                (Char.ofNat (4096 * d1 + 256 * d2 + 16 * d3 + d4) :: pr.1,
                  pr.2))
            | _, _, _, _ => none
          | _ => none
        else none
    else (parseStrBody rest).map (fun pr => (c :: pr.1, pr.2))

/-- Accumulating parse of a maximal run of decimal digits. -/
def parseNatAcc (acc : ℕ) : List Char → ℕ × List Char
  | [] => (acc, [])
  | c :: rest =>
    if c.isDigit then parseNatAcc (10 * acc + (c.toNat - 48)) rest
    else (acc, c :: rest)

/-- Parsing of a maximal nonempty run of decimal digits as a natural
number. -/
def parseNatTok (cs : List Char) : Option (ℕ × List Char) :=
  match cs with
  | [] => none
  | c :: rest =>
    if c.isDigit then some (parseNatAcc (c.toNat - 48) rest)
    else none

/-- Whether a character list starts with a decimal digit. -/
def headIsDigit (cs : List Char) : Bool :=
  match cs with
  | [] => false
  | c :: _ => c.isDigit

/-- The numeric value of a little-endian digit list. -/
def valLE : List ℕ → ℕ
  | [] => 0
  | d :: ds => d + 10 * valLE ds

mutual

/-- A recursive-descent parser for the canonical JSON emitted by the
stable stringifier, modelling `JSON.parse` on that grammar. `fuel` bounds
the value-level recursion depth. -/
def parseVal : (fuel : ℕ) → List Char → Option (TVal × List Char)
  | 0, _ => none
  | _ + 1, [] => none
  | fuel + 1, c :: cs =>
    if c = quoteChar then
      (parseStrBody cs).map (fun pr => (TVal.s (String.mk pr.1), pr.2))
    else if c = 't' then
      match cs with
      | 'r' :: 'u' :: 'e' :: rest => some (.b true, rest)
      | _ => none
    else if c = 'f' then
      match cs with
      | 'a' :: 'l' :: 's' :: 'e' :: rest => some (.b false, rest)
      | _ => none
    else if c = lbrackChar then
      match cs with
      | [] => none
      | d :: cs2 =>
        if d = rbrackChar then some (.arr [], cs2)
        else (parseItems fuel (d :: cs2)).map (fun pr => (.arr pr.1, pr.2))
    else if c = lbraceChar then
      match cs with
      | [] => none
      | d :: cs2 =>
        if d = rbraceChar then some (.obj [], cs2)
        else (parsePairs fuel (d :: cs2)).map (fun pr => (.obj pr.1, pr.2))
    else if c = minusChar then
      (parseNatTok cs).map (fun pr => (TVal.i (-(pr.1 : Int)), pr.2))
    else if c.isDigit then
      (parseNatTok (c :: cs)).map (fun pr => (TVal.i (pr.1 : Int), pr.2))
    else none

/-- Parsing of the comma-separated items of a nonempty JSON array,
consuming the closing bracket. -/
def parseItems : (fuel : ℕ) → List Char → Option (List TVal × List Char)
  | 0, _ => none
  | fuel + 1, cs =>
    match parseVal fuel cs with
    | none => none
    | some (v, rest) =>
      match rest with
      | [] => none
      | d :: rest2 =>
        if d = commaChar then
          match parseItems fuel rest2 with
          | none => none
          | some (vs, rest3) => some (v :: vs, rest3)
        else if d = rbrackChar then some ([v], rest2)
        else none

/-- Parsing of the comma-separated entries of a nonempty JSON object,
consuming the closing brace. -/
def parsePairs : (fuel : ℕ) → List Char →
    Option (List (String × TVal) × List Char)
  | 0, _ => none
  | fuel + 1, cs =>
    match cs with
    | [] => none
    | c :: cs1 =>
      if c = quoteChar then
        match parseStrBody cs1 with
        | none => none
        | some (k, cs2) =>
          match cs2 with
          | [] => none
          | d :: cs3 =>
            if d = colonChar then
              match parseVal fuel cs3 with
              | none => none
              | some (v, cs4) =>
                match cs4 with
                | [] => none
                | e :: cs5 =>
                  if e = commaChar then
                    match parsePairs fuel cs5 with
                    | none => none
                    | some (ps, cs6) => some ((String.mk k, v) :: ps, cs6)
                  else if e = rbraceChar then
                    some ([(String.mk k, v)], cs5)
                  else none
            else none
      else none

end

/-- Parse-tree size of a value, used to bound the parser fuel. -/
def nodes : TVal → ℕ
  | .s _ => 1
  | .i _ => 1
  | .b _ => 1
  | .arr l => 1 + (l.attach.map (fun x => 1 + nodes x.1)).sum
  | .obj l => 1 + (l.attach.map (fun p => 1 + nodes p.1.2)).sum
termination_by v => sizeOf v
decreasing_by
  · have hx := List.sizeOf_lt_of_mem x.2
    simp only [TVal.arr.sizeOf_spec]
    omega
  · have hx := List.sizeOf_lt_of_mem p.2
    have hsnd : sizeOf p.1.2 < sizeOf p.1 := by
      obtain ⟨a, c⟩ := p.1
      simp only [Prod.mk.sizeOf_spec]
      omega
    simp only [TVal.obj.sizeOf_spec]
    omega

/-- The fuel needed to parse a rendered item list. -/
def needItems (l : List TVal) : ℕ :=
  (l.map (fun x => 1 + nodes x)).sum

/-- The fuel needed to parse a rendered entry list. -/
def needPairs (l : List (String × TVal)) : ℕ :=
  (l.map (fun p => 1 + nodes p.2)).sum

/-- `JSON.parse(s)` on the canonical grammar: the whole input must parse
as one value. -/
def jsonParse (cs : List Char) : Option TVal :=
  match parseVal (cs.length + 1) cs with
  | some (v, []) => some v
  | _ => none

/-! ### The codec itself -/

/-- The schema type tag of an attribute (`schema.type`). -/
inductive SchemaType where
  | string
  | integer
  | number
  | boolean
  | object
  | array
deriving DecidableEq

/-- A JavaScript runtime type, the codomain of
`SCHEMA_TYPE_TO_JS_TYPE_MAP`. -/
inductive JSType where
  | strT
  | numT
  | boolT
  | objT
  | arrT
deriving DecidableEq

/-- `SCHEMA_TYPE_TO_JS_TYPE_MAP`: integers and numbers share the JS
`Number` type. -/
def schemaToJS : SchemaType → JSType
  | .string => .strT
  | .integer => .numT
  | .number => .numT
  | .boolean => .boolT
  | .object => .objT
  | .array => .arrT

/-- The JS runtime type of a value. -/
def jsTypeOfVal : TVal → JSType
  | .s _ => .strT
  | .i _ => .numT
  | .b _ => .boolT
  | .obj _ => .objT
  | .arr _ => .arrT

/-- Errors raised by the codec. `invalidField` mirrors
`InvalidFieldError`; `attrUndefined` models the JS crash that occurs when
a key-order name has no compiled attribute; `jsonSyntax` models a
`JSON.parse` syntax error. -/
inductive CodecErr where
  | invalidField (fieldName : String)
  | attrUndefined (fieldName : String)
  | jsonSyntax (fieldName : String)
deriving DecidableEq

/-- The compiled attribute data the codec consults: the schema type tag
and optionality. The value-range checks of the external schema library
(`assertValid`) are abstracted to type conformance. -/
structure AttrSpec where
  type : SchemaType
  optional : Bool
deriving DecidableEq

/-- Association-list lookup used for `this._attrs[name]` and
`values[name]`. -/
def pairsLookup {β : Type} (l : List (String × β)) (n : String) : Option β :=
  match l with
  | [] => none
  | q :: t => if q.1 = n then some q.2 else pairsLookup t n

/-- `validateValue(fieldName, opts, val)` as the codec uses it: returns
the JS value type from the schema; an omitted value passes only for
optional fields; a present value must conform to the schema type. -/
def validateValueC (fieldName : String) (a : AttrSpec) (val : Option TVal) :
    Except CodecErr JSType :=
  match val with
  | none =>
    if a.optional then .ok (schemaToJS a.type)
    else .error (.invalidField fieldName)
  | some v =>
    if jsTypeOfVal v = schemaToJS a.type then .ok (schemaToJS a.type)
    else .error (.invalidField fieldName)

/-- Whether a string contains the NUL character. -/
def hasNul (s : String) : Bool :=
  s.data.any (fun c => c = nulChar)

/-- One piece of `__encodeCompoundValue`: look the component up, reject a
missing value, validate it, reject NUL in string components, render
non-string components with the stable stringifier. -/
def encodePiece (attrs : List (String × AttrSpec))
    (values : List (String × TVal)) (fieldName : String) :
    Except CodecErr (List Char) :=
  match pairsLookup attrs fieldName with
  | none => .error (.attrUndefined fieldName)
  | some fieldOpts =>
    match pairsLookup values fieldName with
    | none => .error (.invalidField fieldName)
    | some givenValue =>
      match validateValueC fieldName fieldOpts (some givenValue) with
      | .error e => .error e
      | .ok valueType =>
        if valueType = JSType.strT then
          match givenValue with
          | .s str =>
            if hasNul str then .error (.invalidField fieldName)
            else .ok str.data
          | _ => .error (.invalidField fieldName)
        else .ok (render givenValue)

/-- `Model.__encodeCompoundValue(keyOrder, values)`: encodes each
component in key order and joins the pieces with a single NUL separator.
The result is always a string of characters (`pieces.join`). -/
def encodeCompoundValue (attrs : List (String × AttrSpec))
    (keyOrder : List String) (values : List (String × TVal)) :
    Except CodecErr (List Char) :=
  match keyOrder.mapM (encodePiece attrs values) with
  | .error e => .error e
  | .ok pieces => .ok (List.intercalate [nulChar] pieces)

/-- One piece of `__decodeCompoundValue`: strings are taken verbatim,
anything else goes through `JSON.parse`; the result is validated
against the component schema. -/
def decodePiece (attrs : List (String × AttrSpec)) (fieldName : String)
    (piece : List Char) : Except CodecErr (String × TVal) :=
  match pairsLookup attrs fieldName with
  | none => .error (.attrUndefined fieldName)
  | some fieldOpts =>
    let valueType := schemaToJS fieldOpts.type
    let parsed : Except CodecErr TVal :=
      if valueType = JSType.strT then .ok (TVal.s (String.mk piece))
      else
        match jsonParse piece with
        | none => .error (.jsonSyntax fieldName)
        | some v => .ok v
    match parsed with
    | .error e => .error e
    | .ok v =>
      match validateValueC fieldName fieldOpts (some v) with
      | .error e => .error e
      | .ok _ => .ok (fieldName, v)

/-- `Model.__decodeCompoundValue(keyOrder, val)`: splits on NUL, requires
exactly one piece per key component, parses and validates each piece. -/
def decodeCompoundValue (attrs : List (String × AttrSpec))
    (keyOrder : List String) (val : List Char) :
    Except CodecErr (List (String × TVal)) :=
  let pieces := val.splitOn nulChar
  if pieces.length ≠ keyOrder.length then .error (.invalidField ("KEY"))
  else (keyOrder.zip pieces).mapM (fun pr => decodePiece attrs pr.1 pr.2)

/-- The type of an encoded document identifier as a JavaScript value:
either a string or a native number. In the source under verification,
`__encodeCompoundValue` always returns a string (`pieces.join`). -/
inductive EncodedId where
  | strVal (s : List Char)
  | numVal (n : Int)
deriving DecidableEq

/-- The encoded identifier produced by the code (used by `_id`, `key()`
and `data()`): the string returned by `__encodeCompoundValue`. -/
def encodedIdOfCode (attrs : List (String × AttrSpec))
    (keyOrder : List String) (values : List (String × TVal)) :
    Except CodecErr EncodedId :=
  match encodeCompoundValue attrs keyOrder values with
  | .error e => .error e
  | .ok cs => .ok (.strVal cs)

/-- Modelled from the spec: the claim that for a model class whose KEY has
exactly one numeric component, the encoded identifier is the native
numeric value itself. -/
def specSingleNumericId (n : Int) : EncodedId := .numVal n

/-- Deep equality of JavaScript values as maps (object key order
irrelevant), the notion of `==` used by the round-trip specification. -/
inductive TVal.Equiv : TVal → TVal → Prop where
  | s (v : String) : TVal.Equiv (.s v) (.s v)
  | i (n : Int) : TVal.Equiv (.i n) (.i n)
  | b (x : Bool) : TVal.Equiv (.b x) (.b x)
  | arr {l₁ l₂ : List TVal} : List.Forall₂ TVal.Equiv l₁ l₂ →
      TVal.Equiv (.arr l₁) (.arr l₂)
  | obj {l₁ l₂ : List (String × TVal)} :
      (l₁.map Prod.fst).Perm (l₂.map Prod.fst) →
      (∀ k v₁ v₂, pairsLookup l₁ k = some v₁ → pairsLookup l₂ k = some v₂ →
        TVal.Equiv v₁ v₂) →
      TVal.Equiv (.obj l₁) (.obj l₂)

/-- Well-formedness of a value as a JavaScript runtime value: object keys
are distinct at every node (a JS object cannot repeat a key). -/
inductive TVal.WF : TVal → Prop where
  | s (v : String) : TVal.WF (.s v)
  | i (n : Int) : TVal.WF (.i n)
  | b (x : Bool) : TVal.WF (.b x)
  | arr {l : List TVal} : (∀ x ∈ l, TVal.WF x) → TVal.WF (.arr l)
  | obj {l : List (String × TVal)} : (l.map Prod.fst).Nodup →
      (∀ p ∈ l, TVal.WF p.2) → TVal.WF (.obj l)

/-! ## Concrete inputs used by the witnesses and counterexamples -/

/-- A validator-free numeric field option record (mutable, required). -/
def c5Opts : FieldOpts ℚ :=
  { isKey := false, optional := false, immutable := false, defaultVal := none
    assertValid := fun _ => true }

/-- The number field built by `mkNumberField ("count") c5Opts (some 0)
false true false`: a field on a new document whose initial value is
absent but whose construction value is 0. -/
def c5Fresh : NumberFieldState :=
  { toFieldState :=
      { name := "count", opts := c5Opts, value := some 0
        readInitialValue := false, written := false, initialValue := none
        useDefault := false, isForUpdate := false }
    diff := none, mustUseSet := false, base := some 0 }

/-- A validator-free optional numeric field option record. -/
def c5OptsOpt : FieldOpts ℚ :=
  { isKey := false, optional := true, immutable := false, defaultVal := none
    assertValid := fun _ => true }

/-- The number field built by `mkNumberField ("c") c5OptsOpt none false
false false`: both the initial and the current value are absent. -/
def c5FreshNone : NumberFieldState :=
  { toFieldState :=
      { name := "c", opts := c5OptsOpt, value := none
        readInitialValue := false, written := false, initialValue := none
        useDefault := false, isForUpdate := false }
    diff := none, mustUseSet := false, base := none }

/-- A nonnegativity-validated rational field option record. -/
def c4Opts : FieldOpts ℚ :=
  { isKey := false, optional := false, immutable := false, defaultVal := none
    assertValid := fun q => decide (0 ≤ q) }

/-- A concrete mutable field holding the value 1. -/
def c4Field : FieldState ℚ :=
  { name := "n", opts := c4Opts, value := some 1, readInitialValue := false
    written := false, initialValue := some 1, useDefault := false
    isForUpdate := false }

/-- A key descriptor input: required, no default, no explicit readOnly. -/
def c10Schema : SchemaIn ℚ :=
  { readOnlyProp := none, required := true, defaultProp := none
    assertValid := fun _ => true }

/-- The options compiled from `c10Schema` for a key component. -/
def c10Opts : FieldOpts ℚ :=
  { isKey := true, optional := false, immutable := true, defaultVal := none
    assertValid := c10Schema.assertValid }

/-- A key-component field with no defined initial or current value. -/
def c10Field : FieldState ℚ :=
  { name := "k", opts := c10Opts, value := none, readInitialValue := false
    written := false, initialValue := none, useDefault := false
    isForUpdate := false }

/-- Concrete retry options: 2 retries, 500ms initial backoff, 10s cap. -/
def c6Opts : RunOpts := ⟨2, 500, 10000⟩

/-- A stream of retryable errors, one per attempt. -/
def c6Errs : ℕ → DriverErr := fun i => ⟨true, i⟩

/-- Attempts that always fail with a retryable error. -/
def c6Attempts : ℕ → RunOutcome Unit := fun i => .failure (c6Errs i)

/-- A fixed random stream. -/
def c6Rand : ℕ → ℚ := fun _ => 0

/-- Helper: the decode table for the two-character escapes the parser
accepts after a backslash. -/
def escDecode (e : Char) : Option Char :=
  if e = quoteChar then some quoteChar
  else if e = bslashChar then some bslashChar
  else if e = 'b' then some (Char.ofNat 8)
  else if e = 't' then some (Char.ofNat 9)
  else if e = 'n' then some (Char.ofNat 10)
  else if e = 'f' then some (Char.ofNat 12)
  else if e = 'r' then some (Char.ofNat 13)
  else none

/-- The rendering of one sorted object entry: quoted key, colon, rendered
value. -/
def renderPair (p : String × TVal) : List Char :=
  renderString p.1 ++ colonChar :: render p.2

/-- The piece `__encodeCompoundValue` emits for one component value:
string values go in verbatim, anything else is stable-stringified. -/
def pieceOf (v : TVal) : List Char :=
  match v with
  | .s str => str.data
  | v => render v

/-- A concrete document path. -/
def cPath : DocPath := ⟨"M", "k"⟩

/-- An empty tracking state. -/
def c8St0 : TrackSt := ⟨0, [], []⟩

/-- A driver in which every document exists. -/
def c8Driver : DocPath → Bool := fun _ => true

/-- The model fetched by the first `get` against `c8St0`. -/
def c8Model : CModel := ⟨0, false, cPath⟩

/-- The tracking state after the first `get` against `c8St0`. -/
def c8St1 : TrackSt := ⟨1, [(cPath, 0)], [.live c8Model]⟩

/-- A state in which `cPath` is tracked as fetched-absent. -/
def c9StAbs : TrackSt := ⟨5, [(cPath, 0)], [.absent]⟩

/-- A state in which `cPath` is tracked with a live model. -/
def c9StLive : TrackSt := ⟨7, [(cPath, 0)], [.live ⟨2, false, cPath⟩]⟩

/-- A concrete update model with changed data. -/
def c7WModel : WModel := ⟨cPath, false, false, true⟩

/-- A concrete tracked model that needs saving in a read-only context. -/
def c7SModel : SModel := ⟨⟨cPath, true, false, true⟩, true, true⟩

end FirestoreOrm

/-! # Theorems -/

namespace FirestoreOrm

/-- Helper: the value returned by `get` is the current value, whatever the
`written` flag is. -/
theorem FieldState.get_fst {α : Type} (f : FieldState α) :
    (f.get).1 = f.value := by
  unfold FieldState.get
  split <;> rfl

/-- Claim C4: for every field `f` and every value `v` that fails the
validator of `f`, `f.set v` raises `InvalidField` and leaves the
observable state unchanged: `get` returns the pre-call value, and
`mutated` and `written` report their pre-call values. -/
theorem set_invalid_raises_and_restores {α : Type} [DecidableEq α]
    (f : FieldState α) (v : Option α)
    (hfail : validateValue f.name f.opts v =
      Except.error (FieldErr.invalidField f.name)) :
    (f.set v).1 = Except.error (FieldErr.invalidField f.name) ∧
    ((f.set v).2.get).1 = (f.get).1 ∧
    (f.set v).2.mutated = f.mutated ∧
    (f.set v).2.written = f.written := by
  unfold FieldState.set
  by_cases him : f.opts.immutable = true
  · simp [him]
  · simp only [him]
    simp [hfail, FieldState.get_fst, FieldState.mutated]

/-- Witness for C4 at a concrete field: setting -1 on a field validated to
be nonnegative fails and restores the state. -/
theorem set_invalid_raises_and_restores_witness :
    validateValue c4Field.name c4Field.opts (some (-1)) =
      Except.error (FieldErr.invalidField c4Field.name) ∧
    ((c4Field.set (some (-1))).1 =
      Except.error (FieldErr.invalidField c4Field.name) ∧
    ((c4Field.set (some (-1))).2.get).1 = (c4Field.get).1 ∧
    (c4Field.set (some (-1))).2.mutated = c4Field.mutated ∧
    (c4Field.set (some (-1))).2.written = c4Field.written) :=
  ⟨rfl, set_invalid_raises_and_restores c4Field (some (-1)) rfl⟩

/-- Helper: compiled options always carry
`immutable = isKey || readOnly === true`. -/
theorem validateFieldOptions_immutable {α : Type} (isKey : Bool)
    (fieldName : String) (schema : SchemaIn α) (opts : FieldOpts α)
    (hc : validateFieldOptions isKey fieldName schema = .ok opts) :
    opts.immutable = (isKey || schema.readOnlyProp = some true) := by
  unfold validateFieldOptions at hc
  dsimp only at hc
  repeat' split at hc
  all_goals first
    | (exfalso; exact Except.noConfusion hc)
    | (injection hc with hc2; subst hc2; rfl)

/-- Claim C10: every field compiled as immutable (every key component and
every field whose descriptor is marked readOnly) raises `InvalidField` on
every call to `set`, leaving the state untouched — even when the field
has no defined initial or current value. -/
theorem immutable_set_always_raises {α : Type} (isKey : Bool)
    (fieldName : String) (schema : SchemaIn α) (opts : FieldOpts α)
    (hc : validateFieldOptions isKey fieldName schema = .ok opts)
    (him : isKey = true ∨ schema.readOnlyProp = some true)
    (f : FieldState α) (hf : f.opts = opts) (v : Option α) :
    (f.set v).1 = Except.error (FieldErr.invalidField f.name) ∧
    (f.set v).2 = f := by
  have himm : f.opts.immutable = true := by
    rw [hf, validateFieldOptions_immutable isKey fieldName schema opts hc]
    rcases him with h | h
    · simp [h]
    · simp [h]
  unfold FieldState.set
  simp [himm]

/-- Witness for C10: a key component with no defined initial or current
value rejects even `set none`. -/
theorem immutable_set_always_raises_witness :
    validateFieldOptions true ("k") c10Schema = Except.ok c10Opts ∧
    c10Field.opts = c10Opts ∧
    ((c10Field.set none).1 =
      Except.error (FieldErr.invalidField c10Field.name) ∧
    (c10Field.set none).2 = c10Field) :=
  ⟨rfl, rfl,
    immutable_set_always_raises true ("k") c10Schema c10Opts rfl
      (Or.inl rfl) c10Field rfl none⟩

/-- Counterexample to claim C5 as stated: a numeric field whose initial
value is absent (a field on a new document constructed with the value 0)
does not raise on `incrementBy 1`; the increment succeeds and the value
becomes 1. -/
theorem incrementBy_absent_initial_counterexample :
    mkNumberField ("count") c5Opts (some 0) false true false =
      Except.ok c5Fresh ∧
    c5Fresh.initialValue = none ∧
    (c5Fresh.incrementBy 1).1 = Except.ok () ∧
    (c5Fresh.incrementBy 1).2.value = some 1 := by
  refine ⟨rfl, rfl, rfl, ?_⟩
  show some ((0 : ℚ) + 1) = some 1
  norm_num

/-- Helper: every field produced by the `__Field` constructor starts with
its given name and options, unread and unwritten. -/
theorem mkField_shape {α : Type} (name : String) (opts : FieldOpts α)
    (val : Option α) (valIsFromDB valSpecified isForUpdate : Bool)
    (f : FieldState α)
    (h : mkField name opts val valIsFromDB valSpecified isForUpdate =
      .ok f) :
    f.name = name ∧ f.opts = opts ∧ f.readInitialValue = false ∧
    f.written = false := by
  unfold mkField at h
  dsimp only at h
  repeat' split at h
  all_goals first
    | (exfalso; exact Except.noConfusion h)
    | (injection h with h2; subst h2; exact ⟨rfl, rfl, rfl, rfl⟩)

/-- Helper: the base captured by the `NumberField` constructor is absent
exactly when both the initial value and the construction value are
absent. -/
theorem mkNumberField_inv (name : String) (opts : FieldOpts ℚ)
    (val : Option ℚ) (valIsFromDB valSpecified isForUpdate : Bool)
    (f : NumberFieldState)
    (h : mkNumberField name opts val valIsFromDB valSpecified isForUpdate =
      .ok f) :
    f.name = name ∧ f.opts = opts ∧ f.readInitialValue = false ∧
    f.mustUseSet = false ∧ f.diff = none ∧
    (f.base = none ↔ f.initialValue = none ∧ f.value = none) := by
  unfold mkNumberField at h
  split at h
  · exact absurd h (by simp)
  · rename_i f0 hf0
    cases h
    obtain ⟨h1, h2, h3, _⟩ :=
      mkField_shape name opts val valIsFromDB valSpecified isForUpdate f0 hf0
    refine ⟨h1, h2, h3, rfl, rfl, ?_⟩
    show (match f0.initialValue with
      | some b => some b
      | none => match f0.value with | some v => some v | none => none) =
        none ↔ _
    cases f0.initialValue <;> cases f0.value <;> simp

/-- Claim C5 amended: for a freshly constructed, mutable, validator-passing
numeric field, `incrementBy` raises `InvalidField` exactly when the
captured base — the initial value if defined, otherwise the construction
value — is absent; the absence of the initial value alone does not make it
raise. -/
theorem incrementBy_raises_iff_base_absent (name : String)
    (opts : FieldOpts ℚ) (val : Option ℚ)
    (valIsFromDB valSpecified isForUpdate : Bool) (f : NumberFieldState)
    (d : ℚ)
    (hmk : mkNumberField name opts val valIsFromDB valSpecified isForUpdate =
      .ok f)
    (him : opts.immutable = false)
    (hvalid : ∀ q : ℚ, opts.assertValid q = true) :
    ((f.incrementBy d).1 = Except.error (FieldErr.invalidField name) ↔
      (f.initialValue = none ∧ f.value = none)) := by
  obtain ⟨hn, ho, hr, hm, hd, hb⟩ :=
    mkNumberField_inv name opts val valIsFromDB valSpecified isForUpdate f hmk
  unfold NumberFieldState.incrementBy
  rw [hd, hr, hm]
  simp only [Bool.or_self, Bool.false_eq_true, if_false]
  unfold NumberFieldState.sumIfValid
  simp only [if_true]
  cases hbase : f.base with
  | none =>
    rw [← hb]
    simp [hn, hbase]
  | some x =>
    have hnb : ¬(f.initialValue = none ∧ f.value = none) := by
      rw [← hb, hbase]
      simp
    simp only [hbase]
    unfold FieldState.set
    have himm : f.toFieldState.opts.immutable = false := by
      show f.opts.immutable = false
      rw [ho, him]
    rw [himm]
    simp only [Bool.false_eq_true, if_false]
    have hva : validateValue f.toFieldState.name f.toFieldState.opts
        (some (x + d)) = .ok () := by
      show validateValue f.name f.opts (some (x + d)) = .ok ()
      unfold validateValue
      rw [ho]
      simp [hvalid]
    rw [hva]
    simp [hnb]

/-- Witness for the amended C5: a numeric field with neither an initial
nor a construction value raises on `incrementBy 1`. -/
theorem incrementBy_raises_iff_base_absent_witness :
    mkNumberField ("c") c5OptsOpt none false false false =
      Except.ok c5FreshNone ∧
    ((c5FreshNone.incrementBy 1).1 =
        Except.error (FieldErr.invalidField ("c")) ↔
      (c5FreshNone.initialValue = none ∧ c5FreshNone.value = none)) :=
  ⟨rfl,
    incrementBy_raises_iff_base_absent ("c") c5OptsOpt none false false false
      c5FreshNone 1 rfl rfl (fun _ => rfl)⟩

/-- Helper: advancing `backoffFrom` unfolds on the far end as well. -/
theorem backoffFrom_succ (maxB : ℚ) : ∀ (n : ℕ) (b : ℚ),
    backoffFrom maxB b (n + 1) = min maxB (2 * backoffFrom maxB b n) := by
  intro n
  induction n with
  | zero => intro b; rfl
  | succ m ih =>
    intro b
    show backoffFrom maxB (min maxB (2 * b)) (m + 1) = _
    rw [ih (min maxB (2 * b))]
    rfl

/-- Helper: `backoffSeq` is `backoffFrom` started at the initial
backoff. -/
theorem backoffSeq_eq_backoffFrom (opts : RunOpts) (i : ℕ) :
    backoffSeq opts i = backoffFrom opts.maxBackoff opts.initialBackoff i := by
  induction i with
  | zero => rfl
  | succ n ih =>
    rw [backoffFrom_succ]
    show min opts.maxBackoff (2 * backoffSeq opts n) = _
    rw [ih]

/-- Helper: the backoff base stays positive. -/
theorem backoffSeq_pos (opts : RunOpts) (hb : 0 < opts.initialBackoff)
    (hmax : 0 < opts.maxBackoff) (i : ℕ) : 0 < backoffSeq opts i := by
  induction i with
  | zero => exact hb
  | succ n ih =>
    show 0 < min opts.maxBackoff (2 * backoffSeq opts n)
    exact lt_min hmax (by linarith)

/-- Helper: the jittered delay lies in `[0.9 b, 1.1 b)` whenever the base
is positive and the random draw is in `[0, 1)`. -/
theorem jitter_bounds (r b : ℚ) (hb : 0 < b) (hr0 : 0 ≤ r) (hr1 : r < 1) :
    (9 / 10) * b ≤ b + jitterOffset r b ∧
    b + jitterOffset r b < (11 / 10) * b := by
  unfold jitterOffset
  have hfl0 : (0 : ℤ) ≤ Int.floor (r * b * (1 / 5)) := by
    apply Int.floor_nonneg.mpr
    positivity
  have hflu : ((Int.floor (r * b * (1 / 5)) : ℤ) : ℚ) ≤ r * b * (1 / 5) :=
    Int.floor_le _
  have hlt : r * b * (1 / 5) < b * (1 / 5) := by
    have := mul_lt_mul_of_pos_right hr1 hb
    nlinarith
  constructor
  · have : (0 : ℚ) ≤ ((Int.floor (r * b * (1 / 5)) : ℤ) : ℚ) := by
      exact_mod_cast hfl0
    linarith
  · linarith

/-- Helper: when every attempt up to the budget fails with a retryable
error, the loop makes exactly one attempt per unit of budget, sleeps the
jittered doubled-and-capped backoff before each retry, and ends by
wrapping the last error in `TransactionFailedError`, emitting it via
`TX_FAILED` and throwing it. -/
theorem runAttempts_all_fail {α : Type} (attempts : ℕ → RunOutcome α)
    (rand : ℕ → ℚ) (errs : ℕ → DriverErr) (maxB : ℚ) :
    ∀ (remaining tryCnt : ℕ) (backoff : ℚ),
    (∀ i, tryCnt ≤ i → i ≤ tryCnt + remaining →
      attempts i = .failure (errs i) ∧ (errs i).retryable = true) →
    runAttempts attempts rand maxB remaining tryCnt backoff =
      { result := .error (.transactionFailed (errs (tryCnt + remaining)))
        attemptsMade := tryCnt + remaining + 1
        sleeps := (List.range remaining).map (fun j =>
          backoffFrom maxB backoff j +
            jitterOffset (rand (tryCnt + j)) (backoffFrom maxB backoff j))
        events := [.txFailed (.transactionFailed (errs (tryCnt + remaining)))] } := by
  intro remaining
  induction remaining with
  | zero =>
    intro tryCnt backoff h
    obtain ⟨ha, hr⟩ := h tryCnt le_rfl (by omega)
    rw [runAttempts, ha]
    simp [hr]
  | succ r ih =>
    intro tryCnt backoff h
    obtain ⟨ha, hr⟩ := h tryCnt le_rfl (by omega)
    rw [runAttempts, ha]
    simp only [hr, Bool.true_eq_false, if_false]
    rw [ih (tryCnt + 1) (min maxB (2 * backoff))
      (fun i h1 h2 => h i (by omega) (by omega))]
    have harith : tryCnt + 1 + r = tryCnt + (r + 1) := by omega
    have hfun : (fun j => backoffFrom maxB (min maxB (2 * backoff)) j +
        jitterOffset (rand (tryCnt + 1 + j))
          (backoffFrom maxB (min maxB (2 * backoff)) j)) =
        ((fun j => backoffFrom maxB backoff j +
          jitterOffset (rand (tryCnt + j)) (backoffFrom maxB backoff j)) ∘
            Nat.succ) := by
      funext j
      simp only [Function.comp_apply]
      have h2 : tryCnt + (j + 1) = tryCnt + 1 + j := by omega
      have h3 : backoffFrom maxB backoff (j + 1) =
          backoffFrom maxB (min maxB (2 * backoff)) j := rfl
      show _ = backoffFrom maxB backoff (Nat.succ j) +
        jitterOffset (rand (tryCnt + Nat.succ j))
          (backoffFrom maxB backoff (Nat.succ j))
      rw [Nat.succ_eq_add_one, h3, h2]
    rw [harith, List.range_succ_eq_map, List.map_cons, List.map_map, hfun]
    simp [backoffFrom]

/-- Claim C6: a context whose closure or commit fails on every attempt
with a retryable error makes exactly `retries + 1` attempts; before each
of the `retries` retries it sleeps the current backoff base (which starts
at `initialBackoff`, doubles after each retry and is capped at
`maxBackoff`) plus a jitter within ±10 percent; and after the last
attempt a `TransactionFailedError` wrapping the last error is thrown and
`TX_FAILED` is emitted with it. -/
theorem run_exhausts_retries {α : Type} (opts : RunOpts)
    (attempts : ℕ → RunOutcome α) (rand : ℕ → ℚ) (errs : ℕ → DriverErr)
    (hfail : ∀ i, i ≤ opts.retries → attempts i = .failure (errs i))
    (hretry : ∀ i, i ≤ opts.retries → (errs i).retryable = true)
    (hb : 0 < opts.initialBackoff) (hmax : 0 < opts.maxBackoff)
    (hrand : ∀ i, i < opts.retries → 0 ≤ rand i ∧ rand i < 1) :
    (contextRun opts attempts rand).attemptsMade = opts.retries + 1 ∧
    (contextRun opts attempts rand).result =
      .error (.transactionFailed (errs opts.retries)) ∧
    (contextRun opts attempts rand).events =
      [.txFailed (.transactionFailed (errs opts.retries))] ∧
    (contextRun opts attempts rand).sleeps.length = opts.retries ∧
    (∀ i, i < opts.retries →
      (contextRun opts attempts rand).sleeps.getD i 0 =
        backoffSeq opts i + jitterOffset (rand i) (backoffSeq opts i)) ∧
    (∀ i, i < opts.retries →
      (9 / 10) * backoffSeq opts i ≤
        (contextRun opts attempts rand).sleeps.getD i 0 ∧
      (contextRun opts attempts rand).sleeps.getD i 0 <
        (11 / 10) * backoffSeq opts i) := by
  have hrun := runAttempts_all_fail attempts rand errs opts.maxBackoff
    opts.retries 0 opts.initialBackoff
    (fun i h1 h2 => ⟨hfail i (by omega), hretry i (by omega)⟩)
  unfold contextRun
  rw [hrun]
  have hget : ∀ i, i < opts.retries →
      ((List.range opts.retries).map (fun j =>
        backoffFrom opts.maxBackoff opts.initialBackoff j +
          jitterOffset (rand (0 + j))
            (backoffFrom opts.maxBackoff opts.initialBackoff j))).getD i 0 =
      backoffSeq opts i + jitterOffset (rand i) (backoffSeq opts i) := by
    intro i hi
    rw [List.getD_eq_getElem?_getD, List.getElem?_map, List.getElem?_range hi]
    simp [backoffSeq_eq_backoffFrom]
  refine ⟨by simp, by simp, by simp, by simp, ?_, ?_⟩
  · intro i hi
    exact hget i hi
  · intro i hi
    have h1 := hget i hi
    simp only [h1]
    exact jitter_bounds (rand i) (backoffSeq opts i)
      (backoffSeq_pos opts hb hmax i) (hrand i hi).1 (hrand i hi).2

/-- Witness for C6: with 2 retries and every attempt failing retryably,
3 attempts occur, both sleeps satisfy the jitter bounds, and the wrapped
last error is thrown and emitted. -/
theorem run_exhausts_retries_witness :
    (contextRun c6Opts c6Attempts c6Rand).attemptsMade = c6Opts.retries + 1 ∧
    (contextRun c6Opts c6Attempts c6Rand).result =
      .error (.transactionFailed (c6Errs c6Opts.retries)) ∧
    (contextRun c6Opts c6Attempts c6Rand).events =
      [.txFailed (.transactionFailed (c6Errs c6Opts.retries))] ∧
    (contextRun c6Opts c6Attempts c6Rand).sleeps.length = c6Opts.retries ∧
    (∀ i, i < c6Opts.retries →
      (contextRun c6Opts c6Attempts c6Rand).sleeps.getD i 0 =
        backoffSeq c6Opts i + jitterOffset (c6Rand i) (backoffSeq c6Opts i)) ∧
    (∀ i, i < c6Opts.retries →
      (9 / 10) * backoffSeq c6Opts i ≤
        (contextRun c6Opts c6Attempts c6Rand).sleeps.getD i 0 ∧
      (contextRun c6Opts c6Attempts c6Rand).sleeps.getD i 0 <
        (11 / 10) * backoffSeq c6Opts i) :=
  run_exhausts_retries c6Opts c6Attempts c6Rand c6Errs
    (fun _ _ => rfl) (fun _ _ => rfl) (by decide) (by decide)
    (fun _ _ => ⟨(by decide : (0 : ℚ) ≤ 0), (by decide : (0 : ℚ) < 1)⟩)

/-- Helper: in a read-only context the commit-time walk issues no write
and, as soon as some tracked model needs a write, raises
`WriteAttemptedInReadOnlyTx`. -/
theorem saveChangedModels_readOnly (models : List (Option SModel)) :
    (saveChangedModels true models).2 = [] ∧
    ((∃ sm ∈ models, ∃ m, sm = some m ∧ needsSave true m = true) →
      (saveChangedModels true models).1 =
        Except.error CtxErr.writeAttemptedInReadOnlyTx) := by
  induction models with
  | nil =>
    refine ⟨rfl, ?_⟩
    rintro ⟨sm, hmem, _⟩
    exact absurd hmem (List.not_mem_nil sm)
  | cons hd rest ih =>
    cases hd with
    | none =>
      refine ⟨ih.1, ?_⟩
      rintro ⟨sm, hmem, m, hsm, hns⟩
      rcases List.mem_cons.mp hmem with h | h
      · subst h
        exact absurd hsm (by simp)
      · exact ih.2 ⟨sm, h, m, hsm, hns⟩
    | some m =>
      by_cases hns : needsSave true m = true
      · constructor
        · show (saveChangedModels true (some m :: rest)).2 = []
          unfold saveChangedModels
          simp [hns]
        · intro _
          show (saveChangedModels true (some m :: rest)).1 = _
          unfold saveChangedModels
          simp [hns]
      · have hstep : saveChangedModels true (some m :: rest) =
            saveChangedModels true rest := by
          rw [saveChangedModels]
          simp [hns]
        rw [hstep]
        refine ⟨ih.1, ?_⟩
        rintro ⟨sm, hmem, m2, hsm, hns2⟩
        rcases List.mem_cons.mp hmem with h | h
        · subst h
          cases hsm
          exact absurd hns2 hns
        · exact ih.2 ⟨sm, h, m2, hsm, hns2⟩

/-- Claim C7: with `readOnly = true` every write operation — `delete`,
`updateWithoutRead`, and the commit-time write of any created or mutated
tracked model — raises `WriteAttemptedInReadOnlyTx` before any driver
write is issued (the issued-effects list stays empty). -/
theorem readOnly_rejects_all_writes (st : TrackSt) (ps : List DocPath)
    (constructed : Except CtxErr WModel) (models : List (Option SModel)) :
    ctxDelete true st ps =
      (Except.error CtxErr.writeAttemptedInReadOnlyTx, []) ∧
    ((∃ m, constructed = Except.ok m) →
      ctxUpdateWithoutRead true constructed =
        (Except.error CtxErr.writeAttemptedInReadOnlyTx, [])) ∧
    (saveChangedModels true models).2 = [] ∧
    ((∃ sm ∈ models, ∃ m, sm = some m ∧ needsSave true m = true) →
      (saveChangedModels true models).1 =
        Except.error CtxErr.writeAttemptedInReadOnlyTx) := by
  refine ⟨rfl, ?_, (saveChangedModels_readOnly models).1,
    (saveChangedModels_readOnly models).2⟩
  rintro ⟨m, hm⟩
  subst hm
  rfl

/-- Witness for C7: a read-only context rejects a concrete delete, a
concrete blind update, and the save of a concrete new model, issuing no
driver write. -/
theorem readOnly_rejects_all_writes_witness :
    ctxDelete true c8St0 [cPath] =
      (Except.error CtxErr.writeAttemptedInReadOnlyTx, []) ∧
    ctxUpdateWithoutRead true (Except.ok c7WModel) =
      (Except.error CtxErr.writeAttemptedInReadOnlyTx, []) ∧
    (saveChangedModels true [some c7SModel]).2 = [] ∧
    (saveChangedModels true [some c7SModel]).1 =
      Except.error CtxErr.writeAttemptedInReadOnlyTx :=
  ⟨(readOnly_rejects_all_writes c8St0 [cPath] (Except.ok c7WModel)
      [some c7SModel]).1,
   (readOnly_rejects_all_writes c8St0 [cPath] (Except.ok c7WModel)
      [some c7SModel]).2.1 ⟨c7WModel, rfl⟩,
   (readOnly_rejects_all_writes c8St0 [cPath] (Except.ok c7WModel)
      [some c7SModel]).2.2.1,
   (readOnly_rejects_all_writes c8St0 [cPath] (Except.ok c7WModel)
      [some c7SModel]).2.2.2 ⟨some c7SModel, by simp, c7SModel, rfl, rfl⟩⟩

/-- Counterexample to claim C9 as stated: with `cacheModels` disabled,
`create` on a path tracked as fetched-absent does not raise
`ModelTrackedTwice` — it succeeds, replacing the sentinel slot with the
new model. -/
theorem create_tracked_absent_counterexample :
    ctxCreate c9StAbs cPath =
      Except.ok (⟨5, true, cPath⟩,
        ⟨6, [(cPath, 0)], [.live ⟨5, true, cPath⟩]⟩) ∧
    ctxCreate c9StAbs cPath ≠ Except.error CtxErr.modelTrackedTwice := by
  refine ⟨rfl, fun h => ?_⟩
  simp only [show ctxCreate c9StAbs cPath =
    Except.ok (⟨5, true, cPath⟩,
      ⟨6, [(cPath, 0)], [.live ⟨5, true, cPath⟩]⟩) from rfl] at h
  exact Except.noConfusion h

/-- Claim C9 amended: `create` raises `ModelTrackedTwice` exactly when the
tracked slot for the key path holds a live model; fetched-absent and
deleted sentinel slots are silently replaced by the new model, and the
`cacheModels` option plays no role (`create` never consults it). -/
theorem create_raises_iff_live_slot (st : TrackSt) (p : DocPath) :
    (ctxCreate st p = Except.error CtxErr.modelTrackedTwice ↔
      ∃ m, slotOf st p = some (.live m)) ∧
    (∀ e, ctxCreate st p = Except.error e → e = CtxErr.modelTrackedTwice) := by
  unfold ctxCreate watchForChangesToSave slotOf
  cases hpl : pathLookup st.paths p with
  | none =>
    simp
  | some idx =>
    cases hs : st.slots.getD idx Slot.absent with
    | live m =>
      simp only [List.getD_eq_getElem?_getD] at hs
      simp [hs]
    | absent =>
      simp only [List.getD_eq_getElem?_getD] at hs
      simp [hs]
    | deleted =>
      simp only [List.getD_eq_getElem?_getD] at hs
      simp [hs]

/-- Witness for the amended C9 at a live slot: `create` raises
`ModelTrackedTwice`. -/
theorem create_raises_iff_live_slot_witness :
    ctxCreate c9StLive cPath = Except.error CtxErr.modelTrackedTwice :=
  (create_raises_iff_live_slot c9StLive cPath).1.mpr ⟨⟨2, false, cPath⟩, rfl⟩

/-- Helper: appending a fresh entry for an untracked path makes it
found. -/
theorem pathLookup_append_self (l : List (DocPath × ℕ)) (p : DocPath)
    (n : ℕ) (h : pathLookup l p = none) :
    pathLookup (l ++ [(p, n)]) p = some n := by
  induction l with
  | nil => simp [pathLookup]
  | cons q t ih =>
    simp only [pathLookup] at h
    simp only [List.cons_append, pathLookup]
    by_cases hq : q.1 = p
    · simp [hq] at h
    · simp only [hq, if_false] at h ⊢
      exact ih h

/-- Helper: the slot just appended is found at the old length. -/
theorem getD_append_len (l : List Slot) (a : Slot) :
    (l ++ [a]).getD l.length Slot.absent = a := by
  induction l with
  | nil => rfl
  | cons hd tl ih =>
    show (tl ++ [a]).getD tl.length Slot.absent = a
    exact ih

/-- Claim C8: within one context, with `cacheModels = true` a second `get`
of a key whose first `get` returned a model returns the very same model
instance and leaves the tracking state untouched; with
`cacheModels = false` (the default) the second `get` of an
already-tracked key raises `ModelTrackedTwice`. -/
theorem repeated_get_cached_or_raises (driver : DocPath → Bool)
    (st0 st1 : TrackSt) (p : DocPath) (m : CModel) (r : Option CModel) :
    (ctxGet true driver false st0 p = (Except.ok (some m), st1) →
      ctxGet true driver false st1 p = (Except.ok (some m), st1)) ∧
    (ctxGet false driver false st0 p = (Except.ok r, st1) →
      (ctxGet false driver false st1 p).1 =
        Except.error CtxErr.modelTrackedTwice) := by
  constructor
  · intro h
    unfold ctxGet at h
    cases hpl : pathLookup st0.paths p with
    | some idx =>
      rw [hpl] at h
      dsimp only at h
      rw [if_neg (by simp : ¬(true = false))] at h
      rw [if_neg (by simp :
        ¬(st0.slots.getD idx Slot.absent = Slot.absent ∧ false = true))] at h
      cases hs : st0.slots.getD idx Slot.absent with
      | live m2 =>
        rw [hs] at h
        dsimp only at h
        simp only [Prod.mk.injEq, Except.ok.injEq, Option.some.injEq] at h
        obtain ⟨h1, h2⟩ := h
        subst h1
        subst h2
        unfold ctxGet
        rw [hpl]
        dsimp only
        rw [if_neg (by simp : ¬(true = false))]
        rw [if_neg (by simp [hs] :
          ¬(st0.slots.getD idx Slot.absent = Slot.absent ∧ false = true))]
        rw [hs]
      | absent =>
        rw [hs] at h
        dsimp only at h
        simp at h
      | deleted =>
        rw [hs] at h
        dsimp only at h
        simp at h
    | none =>
      rw [hpl] at h
      dsimp only at h
      unfold gotItem at h
      cases hd : driver p with
      | false =>
        rw [hd] at h
        rw [if_pos (by simp : ((!false) = true ∧ ¬(false = true)))] at h
        unfold watchForChangesToSave at h
        rw [hpl] at h
        dsimp only at h
        simp at h
      | true =>
        rw [hd] at h
        rw [if_neg (by simp : ¬((!true) = true ∧ ¬(false = true)))] at h
        unfold watchForChangesToSave at h
        dsimp only at h
        rw [hpl] at h
        dsimp only at h
        simp only [Prod.mk.injEq, Except.ok.injEq, Option.some.injEq] at h
        obtain ⟨h1, h2⟩ := h
        subst h1
        subst h2
        unfold ctxGet
        dsimp only
        rw [pathLookup_append_self st0.paths p st0.slots.length hpl]
        dsimp only
        rw [if_neg (by simp : ¬(true = false))]
        rw [getD_append_len st0.slots (Slot.live ⟨st0.nextId, !true, p⟩)]
        rw [if_neg (by simp :
          ¬(Slot.live ⟨st0.nextId, !true, p⟩ = Slot.absent ∧
            false = true))]
  · intro h
    unfold ctxGet at h
    cases hpl : pathLookup st0.paths p with
    | some idx =>
      rw [hpl] at h
      dsimp only at h
      simp at h
    | none =>
      rw [hpl] at h
      dsimp only at h
      unfold gotItem at h
      cases hd : driver p with
      | false =>
        rw [hd] at h
        rw [if_pos (by simp : ((!false) = true ∧ ¬(false = true)))] at h
        unfold watchForChangesToSave at h
        rw [hpl] at h
        dsimp only at h
        simp only [Prod.mk.injEq, Except.ok.injEq] at h
        obtain ⟨_, hst⟩ := h
        subst hst
        unfold ctxGet
        dsimp only
        rw [pathLookup_append_self st0.paths p st0.slots.length hpl]
        dsimp only
        rw [if_pos rfl]
      | true =>
        rw [hd] at h
        rw [if_neg (by simp : ¬((!true) = true ∧ ¬(false = true)))] at h
        unfold watchForChangesToSave at h
        dsimp only at h
        rw [hpl] at h
        dsimp only at h
        simp only [Prod.mk.injEq, Except.ok.injEq, Option.some.injEq] at h
        obtain ⟨_, hst⟩ := h
        subst hst
        unfold ctxGet
        dsimp only
        rw [pathLookup_append_self st0.paths p st0.slots.length hpl]
        dsimp only
        rw [if_pos rfl]

/-- Witness for C8: in an all-documents-exist driver, the first `get`
tracks a fresh model; under `cacheModels` the second `get` returns that
same instance with the state untouched, and without it the second `get`
raises `ModelTrackedTwice`. -/
theorem repeated_get_cached_or_raises_witness :
    (ctxGet true c8Driver false c8St1 cPath =
      (Except.ok (some c8Model), c8St1)) ∧
    ((ctxGet false c8Driver false c8St1 cPath).1 =
      Except.error CtxErr.modelTrackedTwice) :=
  ⟨(repeated_get_cached_or_raises c8Driver c8St0 c8St1 cPath c8Model
      (some c8Model)).1 rfl,
   (repeated_get_cached_or_raises c8Driver c8St0 c8St1 cPath c8Model
      (some c8Model)).2 rfl⟩

/-! ### Codec helper lemmas -/

/-- Unfolding of `render` on strings. -/
theorem render_s (v : String) : render (.s v) = renderString v := by
  rw [render]

/-- Unfolding of `render` on numbers. -/
theorem render_i (n : Int) : render (.i n) = renderInt n := by
  rw [render]

/-- Unfolding of `render` on booleans. -/
theorem render_b (x : Bool) :
    render (.b x) = (if x then ['t', 'r', 'u', 'e']
      else ['f', 'a', 'l', 's', 'e']) := by
  cases x <;> rw [render] <;> rfl

/-- Unfolding of `render` on arrays. -/
theorem render_arr (l : List TVal) :
    render (.arr l) =
      lbrackChar :: joinComma (l.map render) ++ [rbrackChar] := by
  rw [render, List.attach_map_val l render]

/-- Unfolding of `render` on objects. -/
theorem render_obj (l : List (String × TVal)) :
    render (.obj l) =
      lbraceChar :: joinComma ((sortPairs l).map renderPair) ++
        [rbraceChar] := by
  rw [render,
    List.attach_map_val (sortPairs l)
      (fun p => renderString p.1 ++ colonChar :: render p.2)]
  rfl

/-- Unfolding of `canon` on arrays. -/
theorem canon_arr (l : List TVal) :
    canon (.arr l) = .arr (l.map canon) := by
  rw [canon, List.attach_map_val l canon]

/-- Unfolding of `canon` on objects. -/
theorem canon_obj (l : List (String × TVal)) :
    canon (.obj l) =
      .obj ((sortPairs l).map (fun p => (p.1, canon p.2))) := by
  rw [canon,
    List.attach_map_val (sortPairs l) (fun p => (p.1, canon p.2))]

/-- Unfolding of `nodes` on arrays. -/
theorem nodes_arr (l : List TVal) : nodes (.arr l) = 1 + needItems l := by
  rw [nodes, List.attach_map_val l (fun x => 1 + nodes x)]
  rfl

/-- Unfolding of `nodes` on objects. -/
theorem nodes_obj (l : List (String × TVal)) :
    nodes (.obj l) = 1 + needPairs l := by
  rw [nodes, List.attach_map_val l (fun p => 1 + nodes p.2)]
  rfl

/-- `sortPairs` permutes its input. -/
theorem sortPairs_perm (l : List (String × TVal)) : (sortPairs l).Perm l :=
  List.perm_insertionSort keyLe l

/-- `sortPairs` sorts by key. -/
theorem sortPairs_sorted (l : List (String × TVal)) :
    List.Sorted keyLe (sortPairs l) :=
  List.sorted_insertionSort keyLe l

/-- Two sorted entry lists that are permutations of each other and have
distinct keys are equal. -/
theorem sorted_nodupkeys_eq : ∀ (l₁ l₂ : List (String × TVal)),
    l₁.Perm l₂ → List.Sorted keyLe l₁ → List.Sorted keyLe l₂ →
    (l₁.map Prod.fst).Nodup → l₁ = l₂ := by
  intro l₁
  induction l₁ with
  | nil =>
    intro l₂ hp _ _ _
    exact (List.Perm.nil_eq hp).symm ▸ rfl
  | cons p t ih =>
    intro l₂ hp hs1 hs2 hnd
    cases l₂ with
    | nil => exact absurd hp.symm (by simp)
    | cons q t₂ =>
      have hpq : p = q := by
        have hpmem : p ∈ q :: t₂ := hp.subset (List.mem_cons_self p t)
        have hqmem : q ∈ p :: t := hp.symm.subset (List.mem_cons_self q t₂)
        rcases List.mem_cons.mp hpmem with h | hpt
        · exact h
        rcases List.mem_cons.mp hqmem with h | hqt
        · exact h.symm
        have h1 : keyLe p q := (List.sorted_cons.mp hs1).1 q hqt
        have h2 : keyLe q p := (List.sorted_cons.mp hs2).1 p hpt
        have hkeys : p.1 = q.1 := le_antisymm h1 h2
        exfalso
        have : p.1 ∈ t.map Prod.fst := by
          rw [hkeys]
          exact List.mem_map_of_mem Prod.fst hqt
        exact (List.nodup_cons.mp hnd).1 this
      subst hpq
      have ht : t.Perm t₂ := hp.cons_inv
      have := ih t₂ ht (List.sorted_cons.mp hs1).2 (List.sorted_cons.mp hs2).2
        (List.nodup_cons.mp hnd).2
      rw [this]

/-- Sorting is invariant under permutation of an entry list with distinct
keys: the canonical JSON of an object ignores insertion order. -/
theorem sortPairs_perm_congr (l₁ l₂ : List (String × TVal))
    (hp : l₁.Perm l₂) (hnd : (l₁.map Prod.fst).Nodup) :
    sortPairs l₁ = sortPairs l₂ := by
  apply sorted_nodupkeys_eq
  · exact (sortPairs_perm l₁).trans (hp.trans (sortPairs_perm l₂).symm)
  · exact sortPairs_sorted l₁
  · exact sortPairs_sorted l₂
  · have : ((sortPairs l₁).map Prod.fst).Perm (l₁.map Prod.fst) :=
      (sortPairs_perm l₁).map Prod.fst
    exact this.nodup_iff.mpr hnd

/-- Helper: hexadecimal digit characters are never NUL. -/
theorem hexDigitChar_ne_nul (d : ℕ) (hd : d < 16) :
    hexDigitChar d ≠ nulChar := by
  interval_cases d <;> decide

/-- Helper: decimal digit characters are never NUL. -/
theorem digitChar_ne_nul (d : ℕ) (hd : d < 10) : digitChar d ≠ nulChar := by
  interval_cases d <;> decide

/-- Helper: escaping a character never emits a NUL byte (control
characters are escaped symbolically). -/
theorem escapeChar_no_nul (c : Char) : nulChar ∉ escapeChar c := by
  unfold escapeChar
  repeat' split
  · decide
  · decide
  · decide
  · decide
  · decide
  · decide
  · decide
  · rename_i hlt
    intro hmem
    have h16a : c.toNat / 16 < 16 := by omega
    have h16b : c.toNat % 16 < 16 := by omega
    simp only [List.mem_cons, List.not_mem_nil, or_false] at hmem
    rcases hmem with h | h | h | h | h | h <;>
      first
        | exact absurd h.symm (by decide)
        | exact absurd h.symm (hexDigitChar_ne_nul _ (by omega))
  · rename_i h1 h2 h3 h4 h5 h6 h7 h8
    intro hmem
    simp only [List.mem_singleton] at hmem
    rw [← hmem] at h8
    exact h8 (by decide)

/-- Helper: the escaped body of a string literal contains no NUL byte. -/
theorem renderStrBody_no_nul (s : List Char) :
    nulChar ∉ renderStrBody s := by
  unfold renderStrBody
  intro hmem
  rw [List.mem_flatten] at hmem
  obtain ⟨piece, hp, hc⟩ := hmem
  rw [List.mem_map] at hp
  obtain ⟨c, _, hcp⟩ := hp
  rw [← hcp] at hc
  exact escapeChar_no_nul c hc

/-- Helper: a rendered string literal contains no NUL byte. -/
theorem renderString_no_nul (s : String) : nulChar ∉ renderString s := by
  unfold renderString
  intro hmem
  rcases List.mem_cons.mp hmem with h | h
  · exact absurd h (by decide)
  rcases List.mem_append.mp h with h | h
  · exact renderStrBody_no_nul s.data h
  · rcases List.mem_singleton.mp h with h
    exact absurd h (by decide)

/-- Helper: the digits produced by `natDigitsRev` are below 10. -/
theorem natDigitsRev_lt : ∀ (fuel n d : ℕ), d ∈ natDigitsRev fuel n →
    d < 10 := by
  intro fuel
  induction fuel with
  | zero =>
    intro n d h
    exact absurd h (by simp [natDigitsRev])
  | succ f ih =>
    intro n d h
    unfold natDigitsRev at h
    by_cases hn : n = 0
    · simp [hn] at h
    · simp only [hn, if_false] at h
      rcases List.mem_cons.mp h with h | h
      · omega
      · exact ih _ _ h

/-- Helper: a rendered natural number contains no NUL byte. -/
theorem renderNat_no_nul (n : ℕ) : nulChar ∉ renderNat n := by
  unfold renderNat
  by_cases hn : n = 0
  · simp only [hn, if_true]
    decide
  · simp only [hn, if_false]
    intro hmem
    rw [List.mem_map] at hmem
    obtain ⟨d, hd, hdc⟩ := hmem
    have := natDigitsRev_lt n n d (List.mem_reverse.mp hd)
    exact digitChar_ne_nul d this hdc

/-- Helper: a rendered integer contains no NUL byte. -/
theorem renderInt_no_nul (n : Int) : nulChar ∉ renderInt n := by
  unfold renderInt
  split
  · intro hmem
    rcases List.mem_cons.mp hmem with h | h
    · exact absurd h (by decide)
    · exact renderNat_no_nul _ h
  · exact renderNat_no_nul _

/-- Helper: a character of a comma-joined list is a comma or belongs to
one of the pieces. -/
theorem mem_joinComma : ∀ (ls : List (List Char)) (c : Char),
    c ∈ joinComma ls → c = commaChar ∨ ∃ p ∈ ls, c ∈ p := by
  intro ls
  induction ls with
  | nil =>
    intro c h
    exact absurd h (by simp [joinComma])
  | cons x rest ih =>
    intro c h
    cases rest with
    | nil =>
      right
      exact ⟨x, by simp, h⟩
    | cons y r2 =>
      unfold joinComma at h
      rcases List.mem_append.mp h with h | h
      · right
        exact ⟨x, by simp, h⟩
      · rcases List.mem_cons.mp h with h | h
        · left
          exact h
        · rcases ih c h with h | ⟨p, hp, hc⟩
          · left
            exact h
          · right
            exact ⟨p, List.mem_cons_of_mem x hp, hc⟩

/-- Helper: the canonical JSON rendering of any value contains no NUL
byte. -/
theorem render_no_nul : ∀ (n : ℕ) (v : TVal), sizeOf v ≤ n →
    nulChar ∉ render v := by
  intro n
  induction n with
  | zero =>
    intro v hv
    exact absurd hv (by cases v <;> simp)
  | succ n ih =>
    intro v hv
    cases v with
    | s str =>
      rw [render_s]
      exact renderString_no_nul str
    | i k =>
      rw [render_i]
      exact renderInt_no_nul k
    | b x =>
      rw [render_b]
      cases x <;> decide
    | arr l =>
      rw [render_arr]
      intro hmem
      rcases List.mem_cons.mp hmem with h | h
      · exact absurd h (by decide)
      rcases List.mem_append.mp h with h | h
      · rcases mem_joinComma _ _ h with h | ⟨p, hp, hc⟩
        · exact absurd h (by decide)
        · rw [List.mem_map] at hp
          obtain ⟨x, hx, hxp⟩ := hp
          have hsx : sizeOf x ≤ n := by
            have h1 := List.sizeOf_lt_of_mem hx
            have h2 : sizeOf (TVal.arr l) ≤ n + 1 := hv
            simp only [TVal.arr.sizeOf_spec] at h2
            omega
          rw [← hxp] at hc
          exact ih x hsx hc
      · rcases List.mem_singleton.mp h with h
        exact absurd h (by decide)
    | obj l =>
      rw [render_obj]
      intro hmem
      rcases List.mem_cons.mp hmem with h | h
      · exact absurd h (by decide)
      rcases List.mem_append.mp h with h | h
      · rcases mem_joinComma _ _ h with h | ⟨p, hp, hc⟩
        · exact absurd h (by decide)
        · rw [List.mem_map] at hp
          obtain ⟨q, hq, hqp⟩ := hp
          have hql : q ∈ l := ((sortPairs_perm l).mem_iff).mp hq
          have hsx : sizeOf q.2 ≤ n := by
            have h1 := List.sizeOf_lt_of_mem hql
            have h2 : sizeOf (TVal.obj l) ≤ n + 1 := hv
            simp only [TVal.obj.sizeOf_spec] at h2
            have h3 : sizeOf q.2 < sizeOf q := by
              obtain ⟨a, c⟩ := q
              simp only [Prod.mk.sizeOf_spec]
              omega
            omega
          rw [← hqp] at hc
          unfold renderPair at hc
          rcases List.mem_append.mp hc with h | h
          · exact renderString_no_nul q.1 h
          · rcases List.mem_cons.mp h with h | h
            · exact absurd h (by decide)
            · exact ih q.2 hsx h
      · rcases List.mem_singleton.mp h with h
        exact absurd h (by decide)

/-- Helper: parsing one character that needs no escape. -/
theorem parseStrBody_cons_safe (c : Char) (h1 : c ≠ quoteChar)
    (h2 : c ≠ bslashChar) (cs : List Char) :
    parseStrBody (c :: cs) =
      (parseStrBody cs).map (fun pr => (c :: pr.1, pr.2)) := by
  rw [parseStrBody.eq_def]
  dsimp only
  rw [if_neg h1, if_neg h2]

/-- Helper: hex digits round-trip through their character form. -/
theorem hexVal_hexDigitChar (d : ℕ) (hd : d < 16) :
    hexVal (hexDigitChar d) = some d := by
  interval_cases d <;> decide

/-- Helper: parsing a two-character escape. -/
theorem parseStrBody_bslash (e x : Char) (cs : List Char)
    (h : escDecode e = some x) :
    parseStrBody (bslashChar :: e :: cs) =
      (parseStrBody cs).map (fun pr => (x :: pr.1, pr.2)) := by
  unfold escDecode at h
  by_cases he1 : e = quoteChar
  · subst he1
    rw [if_pos rfl] at h
    injection h with hx
    subst hx
    rw [parseStrBody.eq_def]
    dsimp only
    rw [if_neg (by decide : ¬(bslashChar = quoteChar)), if_pos rfl,
      if_pos rfl]
  rw [if_neg he1] at h
  by_cases he2 : e = bslashChar
  · subst he2
    rw [if_pos rfl] at h
    injection h with hx
    subst hx
    rw [parseStrBody.eq_def]
    dsimp only
    rw [if_neg (by decide : ¬(bslashChar = quoteChar)), if_pos rfl,
      if_neg (by decide : ¬(bslashChar = quoteChar)), if_pos rfl]
  rw [if_neg he2] at h
  by_cases he3 : e = 'b'
  · subst he3
    rw [if_pos rfl] at h
    injection h with hx
    subst hx
    rw [parseStrBody.eq_def]
    dsimp only
    rw [if_neg (by decide : ¬(bslashChar = quoteChar)), if_pos rfl,
      if_neg (by decide : ¬(('b' : Char) = quoteChar)),
      if_neg (by decide : ¬(('b' : Char) = bslashChar)), if_pos rfl]
  rw [if_neg he3] at h
  by_cases he4 : e = 't'
  · subst he4
    rw [if_pos rfl] at h
    injection h with hx
    subst hx
    rw [parseStrBody.eq_def]
    dsimp only
    rw [if_neg (by decide : ¬(bslashChar = quoteChar)), if_pos rfl,
      if_neg (by decide : ¬(('t' : Char) = quoteChar)),
      if_neg (by decide : ¬(('t' : Char) = bslashChar)),
      if_neg (by decide : ¬(('t' : Char) = 'b')), if_pos rfl]
  rw [if_neg he4] at h
  by_cases he5 : e = 'n'
  · subst he5
    rw [if_pos rfl] at h
    injection h with hx
    subst hx
    rw [parseStrBody.eq_def]
    dsimp only
    rw [if_neg (by decide : ¬(bslashChar = quoteChar)), if_pos rfl,
      if_neg (by decide : ¬(('n' : Char) = quoteChar)),
      if_neg (by decide : ¬(('n' : Char) = bslashChar)),
      if_neg (by decide : ¬(('n' : Char) = 'b')),
      if_neg (by decide : ¬(('n' : Char) = 't')), if_pos rfl]
  rw [if_neg he5] at h
  by_cases he6 : e = 'f'
  · subst he6
    rw [if_pos rfl] at h
    injection h with hx
    subst hx
    rw [parseStrBody.eq_def]
    dsimp only
    rw [if_neg (by decide : ¬(bslashChar = quoteChar)), if_pos rfl,
      if_neg (by decide : ¬(('f' : Char) = quoteChar)),
      if_neg (by decide : ¬(('f' : Char) = bslashChar)),
      if_neg (by decide : ¬(('f' : Char) = 'b')),
      if_neg (by decide : ¬(('f' : Char) = 't')),
      if_neg (by decide : ¬(('f' : Char) = 'n')), if_pos rfl]
  rw [if_neg he6] at h
  by_cases he7 : e = 'r'
  · subst he7
    rw [if_pos rfl] at h
    injection h with hx
    subst hx
    rw [parseStrBody.eq_def]
    dsimp only
    rw [if_neg (by decide : ¬(bslashChar = quoteChar)), if_pos rfl,
      if_neg (by decide : ¬(('r' : Char) = quoteChar)),
      if_neg (by decide : ¬(('r' : Char) = bslashChar)),
      if_neg (by decide : ¬(('r' : Char) = 'b')),
      if_neg (by decide : ¬(('r' : Char) = 't')),
      if_neg (by decide : ¬(('r' : Char) = 'n')),
      if_neg (by decide : ¬(('r' : Char) = 'f')), if_pos rfl]
  rw [if_neg he7] at h
  exact absurd h (by simp)

/-- Helper: parsing a four-hex-digit unicode escape for a code point below
256. -/
theorem parseStrBody_uEscape (a b : Char) (da db : ℕ)
    (ha : hexVal a = some da) (hb : hexVal b = some db) (cs : List Char) :
    parseStrBody (bslashChar :: 'u' :: '0' :: '0' :: a :: b :: cs) =
      (parseStrBody cs).map (fun pr =>
        (Char.ofNat (4096 * 0 + 256 * 0 + 16 * da + db) :: pr.1, pr.2)) := by
  rw [show parseStrBody (bslashChar :: 'u' :: '0' :: '0' :: a :: b :: cs) =
    match hexVal '0', hexVal '0', hexVal a, hexVal b with
    | some d1, some d2, some d3, some d4 =>
      (parseStrBody cs).map (fun pr =>
        (Char.ofNat (4096 * d1 + 256 * d2 + 16 * d3 + d4) :: pr.1, pr.2))
    | _, _, _, _ => none from rfl]
  rw [ha, hb, show hexVal '0' = some 0 from rfl]

/-- Helper: undoing the escapes of `JSON.stringify` recovers the original
string body and leaves the remainder after the closing quote. -/
theorem parseStrBody_render : ∀ (s : List Char) (rest : List Char),
    parseStrBody (renderStrBody s ++ quoteChar :: rest) = some (s, rest) := by
  intro s
  induction s with
  | nil =>
    intro rest
    show parseStrBody (quoteChar :: rest) = some ([], rest)
    rw [parseStrBody.eq_def]
    dsimp only
    rw [if_pos rfl]
  | cons c s2 ih =>
    intro rest
    have hbody : renderStrBody (c :: s2) =
        escapeChar c ++ renderStrBody s2 := by
      simp [renderStrBody]
    rw [hbody, List.append_assoc]
    by_cases h1 : c = quoteChar
    · subst h1
      rw [show escapeChar quoteChar = [bslashChar, quoteChar] from rfl]
      simp only [List.cons_append, List.nil_append]
      rw [parseStrBody_bslash quoteChar quoteChar _ rfl, ih rest]
      rfl
    by_cases h2 : c = bslashChar
    · subst h2
      rw [show escapeChar bslashChar = [bslashChar, bslashChar] from rfl]
      simp only [List.cons_append, List.nil_append]
      rw [parseStrBody_bslash bslashChar bslashChar _ rfl, ih rest]
      rfl
    by_cases h3 : c = Char.ofNat 8
    · subst h3
      rw [show escapeChar (Char.ofNat 8) = [bslashChar, 'b'] from rfl]
      simp only [List.cons_append, List.nil_append]
      rw [parseStrBody_bslash 'b' (Char.ofNat 8) _ rfl, ih rest]
      rfl
    by_cases h4 : c = Char.ofNat 9
    · subst h4
      rw [show escapeChar (Char.ofNat 9) = [bslashChar, 't'] from rfl]
      simp only [List.cons_append, List.nil_append]
      rw [parseStrBody_bslash 't' (Char.ofNat 9) _ rfl, ih rest]
      rfl
    by_cases h5 : c = Char.ofNat 10
    · subst h5
      rw [show escapeChar (Char.ofNat 10) = [bslashChar, 'n'] from rfl]
      simp only [List.cons_append, List.nil_append]
      rw [parseStrBody_bslash 'n' (Char.ofNat 10) _ rfl, ih rest]
      rfl
    by_cases h6 : c = Char.ofNat 12
    · subst h6
      rw [show escapeChar (Char.ofNat 12) = [bslashChar, 'f'] from rfl]
      simp only [List.cons_append, List.nil_append]
      rw [parseStrBody_bslash 'f' (Char.ofNat 12) _ rfl, ih rest]
      rfl
    by_cases h7 : c = Char.ofNat 13
    · subst h7
      rw [show escapeChar (Char.ofNat 13) = [bslashChar, 'r'] from rfl]
      simp only [List.cons_append, List.nil_append]
      rw [parseStrBody_bslash 'r' (Char.ofNat 13) _ rfl, ih rest]
      rfl
    by_cases h8 : c.toNat < 32
    · have hesc : escapeChar c = [bslashChar, 'u', '0', '0',
          hexDigitChar (c.toNat / 16), hexDigitChar (c.toNat % 16)] := by
        unfold escapeChar
        simp only [if_neg h1, if_neg h2, if_neg h3, if_neg h4, if_neg h5,
          if_neg h6, if_neg h7, if_pos h8]
      rw [hesc]
      simp only [List.cons_append, List.nil_append]
      rw [parseStrBody_uEscape (hexDigitChar (c.toNat / 16))
        (hexDigitChar (c.toNat % 16)) (c.toNat / 16) (c.toNat % 16)
        (hexVal_hexDigitChar _ (by omega)) (hexVal_hexDigitChar _ (by omega))
        (renderStrBody s2 ++ quoteChar :: rest)]
      rw [ih rest]
      have harith : 4096 * 0 + 256 * 0 + 16 * (c.toNat / 16) + c.toNat % 16 =
          c.toNat := by omega
      rw [harith, Char.ofNat_toNat]
      rfl
    · have hesc : escapeChar c = [c] := by
        unfold escapeChar
        simp only [if_neg h1, if_neg h2, if_neg h3, if_neg h4, if_neg h5,
          if_neg h6, if_neg h7, if_neg h8]
      rw [hesc]
      simp only [List.cons_append, List.nil_append]
      rw [parseStrBody_cons_safe c h1 h2, ih rest]
      rfl

/-- Helper: digit characters satisfy `isDigit`. -/
theorem digitChar_isDigit (d : ℕ) (hd : d < 10) :
    (digitChar d).isDigit = true := by
  interval_cases d <;> decide

/-- Helper: the code of a digit character. -/
theorem digitChar_toNat (d : ℕ) (hd : d < 10) :
    (digitChar d).toNat = 48 + d := by
  interval_cases d <;> decide

/-- Helper: the accumulating digit parser consumes exactly a digit block
followed by a non-digit remainder. -/
theorem parseNatAcc_digits : ∀ (tl : List ℕ) (a : ℕ) (rest : List Char),
    (∀ d ∈ tl, d < 10) → headIsDigit rest = false →
    parseNatAcc a (tl.map digitChar ++ rest) =
      (tl.foldl (fun x d => 10 * x + d) a, rest) := by
  intro tl
  induction tl with
  | nil =>
    intro a rest _ hrest
    cases rest with
    | nil => rfl
    | cons c r2 =>
      show parseNatAcc a (c :: r2) = (a, c :: r2)
      unfold parseNatAcc
      rw [show c.isDigit = false from hrest]
      simp
  | cons d tl ih =>
    intro a rest hd hrest
    have hd0 : d < 10 := hd d (by simp)
    show parseNatAcc a (digitChar d :: (tl.map digitChar ++ rest)) = _
    unfold parseNatAcc
    rw [digitChar_isDigit d hd0]
    simp only [if_true]
    rw [digitChar_toNat d hd0]
    have : 10 * a + (48 + d - 48) = 10 * a + d := by omega
    rw [this]
    exact ih (10 * a + d) rest (fun x hx => hd x (by simp [hx])) hrest

/-- Helper: parsing a rendered digit block. -/
theorem parseNatTok_digits : ∀ (rds : List ℕ) (rest : List Char),
    rds ≠ [] → (∀ d ∈ rds, d < 10) → headIsDigit rest = false →
    parseNatTok (rds.map digitChar ++ rest) =
      some (rds.foldl (fun a d => 10 * a + d) 0, rest) := by
  intro rds rest hne hlt hrest
  cases rds with
  | nil => exact absurd rfl hne
  | cons r rtl =>
    have hr : r < 10 := hlt r (by simp)
    show (if (digitChar r).isDigit = true then
        some (parseNatAcc ((digitChar r).toNat - 48)
          (rtl.map digitChar ++ rest))
      else none) = _
    rw [digitChar_isDigit r hr]
    simp only [if_true]
    rw [digitChar_toNat r hr]
    have h48 : 48 + r - 48 = r := by omega
    rw [h48]
    rw [parseNatAcc_digits rtl r rest (fun x hx => hlt x (by simp [hx])) hrest]
    rw [List.foldl_cons]
    have h10 : 10 * 0 + r = r := by omega
    rw [h10]

/-- Helper: the value computed by `natDigitsRev` with enough fuel. -/
theorem natDigitsRev_val : ∀ (fuel n : ℕ), n ≤ fuel →
    valLE (natDigitsRev fuel n) = n := by
  intro fuel
  induction fuel with
  | zero =>
    intro n hn
    interval_cases n
    rfl
  | succ f ih =>
    intro n hn
    unfold natDigitsRev
    by_cases h0 : n = 0
    · simp [h0, valLE]
    · simp only [h0, if_false]
      unfold valLE
      have hdiv : n / 10 ≤ f := by omega
      rw [ih (n / 10) hdiv]
      omega

/-- Helper: `natDigitsRev` produces at least one digit for positive
input. -/
theorem natDigitsRev_ne_nil (n : ℕ) (hn : n ≠ 0) :
    natDigitsRev n n ≠ [] := by
  cases n with
  | zero => exact absurd rfl hn
  | succ m =>
    unfold natDigitsRev
    simp [hn]

/-- Helper: folding digits big-endian computes the little-endian value. -/
theorem foldl_reverse_valLE : ∀ (ds : List ℕ),
    ds.reverse.foldl (fun a d => 10 * a + d) 0 = valLE ds := by
  intro ds
  rw [List.foldl_reverse]
  induction ds with
  | nil => rfl
  | cons d tl ih =>
    unfold valLE
    rw [List.foldr_cons, ih]
    omega

/-- Helper: parsing the decimal rendering of a natural number. -/
theorem parseNatTok_render (n : ℕ) (rest : List Char)
    (hrest : headIsDigit rest = false) :
    parseNatTok (renderNat n ++ rest) = some (n, rest) := by
  unfold renderNat
  by_cases h0 : n = 0
  · subst h0
    rw [if_pos (rfl : (0 : ℕ) = 0)]
    rw [show ([digitChar 0] : List Char) = ([0] : List ℕ).map digitChar
      from rfl]
    rw [parseNatTok_digits [0] rest (by simp) (by simp) hrest]
    rfl
  · simp only [h0, if_false]
    rw [show ((natDigitsRev n n).reverse.map digitChar : List Char) =
      ((natDigitsRev n n).reverse).map digitChar from rfl]
    rw [parseNatTok_digits ((natDigitsRev n n).reverse) rest
      (by simp [natDigitsRev_ne_nil n h0])
      (fun d hd => natDigitsRev_lt n n d (List.mem_reverse.mp hd)) hrest]
    rw [foldl_reverse_valLE, natDigitsRev_val n n le_rfl]

/-- Helper: the decimal rendering of a natural number is a nonempty block
of digit characters whose value is the number itself. -/
theorem renderNat_eq_map (m : ℕ) : ∃ ds : List ℕ,
    renderNat m = ds.map digitChar ∧ ds ≠ [] ∧ (∀ d ∈ ds, d < 10) ∧
    ds.foldl (fun a d => 10 * a + d) 0 = m := by
  by_cases h0 : m = 0
  · subst h0
    exact ⟨[0], rfl, by simp, by simp, by simp⟩
  · refine ⟨(natDigitsRev m m).reverse, ?_, ?_, ?_, ?_⟩
    · unfold renderNat
      simp [h0]
    · simp [natDigitsRev_ne_nil m h0]
    · exact fun d hd => natDigitsRev_lt m m d (List.mem_reverse.mp hd)
    · rw [foldl_reverse_valLE, natDigitsRev_val m m le_rfl]

/-- Helper: renderings are never empty. -/
theorem render_ne_nil (v : TVal) : render v ≠ [] := by
  cases v with
  | s str =>
    rw [render_s]
    simp [renderString]
  | i n =>
    rw [render_i]
    unfold renderInt
    split
    · simp
    · obtain ⟨ds, hmap, hne, _, _⟩ := renderNat_eq_map n.toNat
      rw [hmap]
      simp [hne]
  | b x =>
    rw [render_b]
    cases x <;> simp
  | arr l =>
    rw [render_arr]
    simp
  | obj l =>
    rw [render_obj]
    simp

/-- Helper: no rendering starts with a closing bracket. -/
theorem render_head_ne_rbrack (v : TVal) (c : Char) (cs : List Char)
    (h : render v = c :: cs) : c ≠ rbrackChar := by
  cases v with
  | s str =>
    rw [render_s] at h
    unfold renderString at h
    injection h with h1 _
    rw [← h1]
    decide
  | i n =>
    rw [render_i] at h
    unfold renderInt at h
    split at h
    · injection h with h1 _
      rw [← h1]
      decide
    · obtain ⟨ds, hmap, hne, hlt, _⟩ := renderNat_eq_map n.toNat
      rw [hmap] at h
      cases ds with
      | nil => exact absurd rfl hne
      | cons d tl =>
        simp only [List.map_cons] at h
        injection h with h1 _
        rw [← h1]
        intro hcon
        have ht : (digitChar d).toNat = 48 + d := digitChar_toNat d (hlt d (by simp))
        rw [hcon] at ht
        have : (rbrackChar).toNat = 93 := by decide
        have hd10 : d < 10 := hlt d (by simp)
        omega
  | b x =>
    rw [render_b] at h
    cases x <;> simp only [if_true, if_false, Bool.false_eq_true] at h <;>
      injection h with h1 _ <;> rw [← h1] <;> decide
  | arr l =>
    rw [render_arr] at h
    injection h with h1 _
    rw [← h1]
    decide
  | obj l =>
    rw [render_obj] at h
    injection h with h1 _
    rw [← h1]
    decide

/-- Helper: values occupy at least one parse node. -/
theorem nodes_pos (v : TVal) : 1 ≤ nodes v := by
  cases v with
  | s str => exact le_of_eq (by rw [nodes])
  | i n => exact le_of_eq (by rw [nodes])
  | b x => exact le_of_eq (by rw [nodes])
  | arr l =>
    rw [nodes_arr]
    omega
  | obj l =>
    rw [nodes_obj]
    omega

/-- Helper: fuel accounting for a nonempty item list. -/
theorem needItems_cons (x : TVal) (xs : List TVal) :
    needItems (x :: xs) = 1 + nodes x + needItems xs := by
  unfold needItems
  simp

/-- Helper: fuel accounting for a nonempty entry list. -/
theorem needPairs_cons (p : String × TVal) (ps : List (String × TVal)) :
    needPairs (p :: ps) = 1 + nodes p.2 + needPairs ps := by
  unfold needPairs
  simp

/-- Helper: the fuel needed by an entry list is permutation-invariant. -/
theorem needPairs_sortPairs (l : List (String × TVal)) :
    needPairs (sortPairs l) = needPairs l := by
  unfold needPairs
  exact ((sortPairs_perm l).map (fun p => 1 + nodes p.2)).sum_eq

/-- Helper: one step of the value parser on a string literal. -/
theorem parseVal_succ_str (f : ℕ) (cs : List Char) :
    parseVal (f + 1) (quoteChar :: cs) =
      (parseStrBody cs).map (fun pr => (TVal.s (String.mk pr.1), pr.2)) := by
  simp [parseVal]

/-- Helper: one step of the value parser on the `true` literal. -/
theorem parseVal_succ_true (f : ℕ) (rest : List Char) :
    parseVal (f + 1) ('t' :: 'r' :: 'u' :: 'e' :: rest) =
      some (.b true, rest) := by
  simp [parseVal, quoteChar]

/-- Helper: one step of the value parser on the `false` literal. -/
theorem parseVal_succ_false (f : ℕ) (rest : List Char) :
    parseVal (f + 1) ('f' :: 'a' :: 'l' :: 's' :: 'e' :: rest) =
      some (.b false, rest) := by
  simp [parseVal, quoteChar]

/-- Helper: one step of the value parser on an empty array. -/
theorem parseVal_succ_arrNil (f : ℕ) (cs : List Char) :
    parseVal (f + 1) (lbrackChar :: rbrackChar :: cs) =
      some (.arr [], cs) := by
  simp [parseVal, quoteChar, lbrackChar]

/-- Helper: one step of the value parser on a nonempty array. -/
theorem parseVal_succ_arr (f : ℕ) (d : Char) (cs2 : List Char)
    (hd : d ≠ rbrackChar) :
    parseVal (f + 1) (lbrackChar :: d :: cs2) =
      (parseItems f (d :: cs2)).map (fun pr => (TVal.arr pr.1, pr.2)) := by
  simp [parseVal, quoteChar, lbrackChar, hd]

/-- Helper: one step of the value parser on an empty object. -/
theorem parseVal_succ_objNil (f : ℕ) (cs : List Char) :
    parseVal (f + 1) (lbraceChar :: rbraceChar :: cs) =
      some (.obj [], cs) := by
  simp [parseVal, quoteChar, lbrackChar, lbraceChar]

/-- Helper: one step of the value parser on a nonempty object. -/
theorem parseVal_succ_obj (f : ℕ) (d : Char) (cs2 : List Char)
    (hd : d ≠ rbraceChar) :
    parseVal (f + 1) (lbraceChar :: d :: cs2) =
      (parsePairs f (d :: cs2)).map (fun pr => (TVal.obj pr.1, pr.2)) := by
  simp [parseVal, quoteChar, lbrackChar, lbraceChar, hd]

/-- Helper: one step of the value parser on a negative number. -/
theorem parseVal_succ_minus (f : ℕ) (cs : List Char) :
    parseVal (f + 1) (minusChar :: cs) =
      (parseNatTok cs).map (fun pr => (TVal.i (-(pr.1 : Int)), pr.2)) := by
  simp [parseVal, quoteChar, lbrackChar, lbraceChar, minusChar]

/-- Helper: one step of the value parser on a leading digit. -/
theorem parseVal_succ_digit (f : ℕ) (c : Char) (cs : List Char)
    (hc : c.isDigit = true) :
    parseVal (f + 1) (c :: cs) =
      (parseNatTok (c :: cs)).map (fun pr => (TVal.i (pr.1 : Int), pr.2)) := by
  have h1 : c ≠ quoteChar := by
    intro h
    rw [h] at hc
    exact absurd hc (by decide)
  have h2 : c ≠ 't' := by
    intro h
    rw [h] at hc
    exact absurd hc (by decide)
  have h3 : c ≠ 'f' := by
    intro h
    rw [h] at hc
    exact absurd hc (by decide)
  have h4 : c ≠ lbrackChar := by
    intro h
    rw [h] at hc
    exact absurd hc (by decide)
  have h5 : c ≠ lbraceChar := by
    intro h
    rw [h] at hc
    exact absurd hc (by decide)
  have h6 : c ≠ minusChar := by
    intro h
    rw [h] at hc
    exact absurd hc (by decide)
  simp [parseVal, h1, h2, h3, h4, h5, h6, hc]

/-- Unfolding of `canon` on strings. -/
theorem canon_s (v : String) : canon (.s v) = .s v := by
  rw [canon]

/-- Unfolding of `canon` on numbers. -/
theorem canon_i (n : Int) : canon (.i n) = .i n := by
  rw [canon]

/-- Unfolding of `canon` on booleans. -/
theorem canon_b (x : Bool) : canon (.b x) = .b x := by
  rw [canon]

/-- Helper: the first fragment of a comma-joined list. -/
theorem joinComma_head (p : List Char) (ps : List (List Char)) :
    joinComma (p :: ps) =
      p ++ (if ps = [] then [] else commaChar :: joinComma ps) := by
  cases ps with
  | nil => simp [joinComma]
  | cons q r => simp [joinComma]

/-- Helper: `parseItems` on a final item followed by the closing bracket. -/
theorem parseItems_last (f : ℕ) {cs : List Char} {v : TVal}
    {rest2 : List Char}
    (h : parseVal f cs = some (v, rbrackChar :: rest2)) :
    parseItems (f + 1) cs = some ([v], rest2) := by
  simp [parseItems, h, commaChar, rbrackChar]

/-- Helper: `parseItems` on an item followed by a comma and more items. -/
theorem parseItems_more (f : ℕ) {cs : List Char} {v : TVal}
    {rest2 rest3 : List Char} {vs : List TVal}
    (h : parseVal f cs = some (v, commaChar :: rest2))
    (h2 : parseItems f rest2 = some (vs, rest3)) :
    parseItems (f + 1) cs = some (v :: vs, rest3) := by
  simp [parseItems, h, h2, commaChar]

/-- Helper: `parsePairs` on a final entry followed by the closing brace. -/
theorem parsePairs_last (f : ℕ) {cs1 : List Char} {k : List Char}
    {cs3 : List Char} {v : TVal} {cs5 : List Char}
    (h1 : parseStrBody cs1 = some (k, colonChar :: cs3))
    (h2 : parseVal f cs3 = some (v, rbraceChar :: cs5)) :
    parsePairs (f + 1) (quoteChar :: cs1) = some ([(String.mk k, v)], cs5) := by
  simp [parsePairs, h1, h2, quoteChar, colonChar, commaChar, rbraceChar]

/-- Helper: `parsePairs` on an entry followed by a comma and more entries. -/
theorem parsePairs_more (f : ℕ) {cs1 : List Char} {k : List Char}
    {cs3 : List Char} {v : TVal} {cs5 cs6 : List Char}
    {ps : List (String × TVal)}
    (h1 : parseStrBody cs1 = some (k, colonChar :: cs3))
    (h2 : parseVal f cs3 = some (v, commaChar :: cs5))
    (h3 : parsePairs f cs5 = some (ps, cs6)) :
    parsePairs (f + 1) (quoteChar :: cs1) =
      some ((String.mk k, v) :: ps, cs6) := by
  simp [parsePairs, h1, h2, h3, quoteChar, colonChar, commaChar, rbraceChar]

/-- A rendered entry starts with the opening quote of its key. -/
theorem renderPair_head (p : String × TVal) :
    ∃ cs0, renderPair p = quoteChar :: cs0 := by
  unfold renderPair renderString
  exact ⟨_, rfl⟩

/-- The comma-join of rendered items starts with the head item's first
character, which is never a closing bracket. -/
theorem joinComma_render_head (x : TVal) (xs : List TVal) :
    ∃ c cs0, joinComma (List.map render (x :: xs)) = c :: cs0 ∧
      c ≠ rbrackChar := by
  obtain ⟨c, cs0, hrx⟩ := List.exists_cons_of_ne_nil (render_ne_nil x)
  refine ⟨c, cs0 ++ (if List.map render xs = [] then []
    else commaChar :: joinComma (List.map render xs)), ?_,
    render_head_ne_rbrack x c cs0 hrx⟩
  simp only [List.map_cons]
  rw [joinComma_head, hrx, List.cons_append]

/-- The comma-join of rendered entries starts with a quote. -/
theorem joinComma_renderPair_head (p : String × TVal)
    (ps : List (String × TVal)) :
    ∃ cs0, joinComma (List.map renderPair (p :: ps)) = quoteChar :: cs0 := by
  obtain ⟨cs1, hrp⟩ := renderPair_head p
  refine ⟨cs1 ++ (if List.map renderPair ps = [] then []
    else commaChar :: joinComma (List.map renderPair ps)), ?_⟩
  simp only [List.map_cons]
  rw [joinComma_head, hrp, List.cons_append]

/-- `parsePairs` on a rendered final entry: key string, colon, value,
closing brace. -/
theorem parsePairs_render_last (f : ℕ) (k : String) (v w : TVal)
    {rest : List Char}
    (h : parseVal f (render v ++ rbraceChar :: rest) =
      some (w, rbraceChar :: rest)) :
    parsePairs (f + 1) (renderPair (k, v) ++ rbraceChar :: rest) =
      some ([(k, w)], rest) := by
  unfold renderPair renderString
  simp only [List.cons_append, List.append_assoc, List.singleton_append]
  exact parsePairs_last f
    (parseStrBody_render k.data (colonChar :: (render v ++ rbraceChar :: rest)))
    h

/-- `parsePairs` on a rendered entry followed by a comma and more
entries. -/
theorem parsePairs_render_more (f : ℕ) (k : String) (v w : TVal)
    {suf rest2 : List Char} {ps2 : List (String × TVal)}
    (h : parseVal f (render v ++ commaChar :: suf) =
      some (w, commaChar :: suf))
    (h2 : parsePairs f suf = some (ps2, rest2)) :
    parsePairs (f + 1) (renderPair (k, v) ++ commaChar :: suf) =
      some ((k, w) :: ps2, rest2) := by
  unfold renderPair renderString
  simp only [List.cons_append, List.append_assoc, List.singleton_append]
  exact parsePairs_more f
    (parseStrBody_render k.data (colonChar :: (render v ++ commaChar :: suf)))
    h h2

/-- Main parser round-trip: with enough fuel, `parseVal` inverts `render`
up to `canon`, and likewise for the item and entry sub-parsers. -/
theorem parse_render_main : ∀ fuel : ℕ,
    (∀ (v : TVal) (rest : List Char), nodes v ≤ fuel →
      (∀ n : Int, v = TVal.i n → headIsDigit rest = false) →
      parseVal fuel (render v ++ rest) = some (canon v, rest)) ∧
    (∀ (l : List TVal) (rest : List Char), l ≠ [] → needItems l ≤ fuel →
      parseItems fuel (joinComma (l.map render) ++ rbrackChar :: rest) =
        some (l.map canon, rest)) ∧
    (∀ (ps : List (String × TVal)) (rest : List Char), ps ≠ [] →
      needPairs ps ≤ fuel →
      parsePairs fuel (joinComma (ps.map renderPair) ++ rbraceChar :: rest) =
        some (ps.map (fun p => (p.1, canon p.2)), rest)) := by
  intro fuel
  induction fuel with
  | zero =>
    refine ⟨?_, ?_, ?_⟩
    · intro v rest hf _
      exact absurd hf (by have := nodes_pos v; omega)
    · intro l rest hne hf
      cases l with
      | nil => exact absurd rfl hne
      | cons x xs =>
        rw [needItems_cons] at hf
        exact absurd hf (by have := nodes_pos x; omega)
    · intro ps rest hne hf
      cases ps with
      | nil => exact absurd rfl hne
      | cons p tl =>
        rw [needPairs_cons] at hf
        exact absurd hf (by have := nodes_pos p.2; omega)
  | succ f ih =>
    obtain ⟨ihv, ihl, ihp⟩ := ih
    refine ⟨?_, ?_, ?_⟩
    · intro v rest hf hguard
      cases v with
      | s str =>
        rw [render_s, canon_s]
        unfold renderString
        rw [List.append_assoc, List.singleton_append, List.cons_append]
        rw [parseVal_succ_str, parseStrBody_render]
        rfl
      | i n =>
        have hg : headIsDigit rest = false := hguard n rfl
        rw [render_i, canon_i]
        unfold renderInt
        by_cases hneg : n < 0
        · rw [if_pos hneg, List.cons_append, parseVal_succ_minus,
            parseNatTok_render n.natAbs rest hg]
          have heq : (some (n.natAbs, rest)).map
              (fun pr => (TVal.i (-(pr.1 : Int)), pr.2)) =
              some (TVal.i (-((n.natAbs : ℕ) : Int)), rest) := rfl
          rw [heq]
          have hn : -((n.natAbs : ℕ) : Int) = n := by omega
          rw [hn]
        · rw [if_neg hneg]
          obtain ⟨ds, hmap, hne, hlt, hval⟩ := renderNat_eq_map n.toNat
          rw [hmap]
          obtain ⟨d, tl, hds⟩ := List.exists_cons_of_ne_nil hne
          subst hds
          simp only [List.map_cons, List.cons_append]
          rw [parseVal_succ_digit f (digitChar d) (List.map digitChar tl ++ rest)
            (digitChar_isDigit d (hlt d (by simp)))]
          rw [show digitChar d :: (List.map digitChar tl ++ rest) =
            List.map digitChar (d :: tl) ++ rest from by simp]
          rw [parseNatTok_digits (d :: tl) rest (by simp) hlt hg, hval]
          have heq : (some (n.toNat, rest)).map
              (fun pr => (TVal.i (pr.1 : Int), pr.2)) =
              some (TVal.i ((n.toNat : ℕ) : Int), rest) := rfl
          rw [heq]
          have hn : ((n.toNat : ℕ) : Int) = n := Int.toNat_of_nonneg (by omega)
          rw [hn]
      | b x =>
        cases x with
        | false =>
          rw [render_b, canon_b]
          show parseVal (f + 1) ('f' :: 'a' :: 'l' :: 's' :: 'e' :: rest) =
            some (.b false, rest)
          exact parseVal_succ_false f rest
        | true =>
          rw [render_b, canon_b]
          show parseVal (f + 1) ('t' :: 'r' :: 'u' :: 'e' :: rest) =
            some (.b true, rest)
          exact parseVal_succ_true f rest
      | arr l =>
        cases l with
        | nil =>
          rw [render_arr, canon_arr]
          show parseVal (f + 1) (lbrackChar :: rbrackChar :: rest) =
            some (.arr [], rest)
          exact parseVal_succ_arrNil f rest
        | cons x xs =>
          rw [render_arr, canon_arr]
          have hb : needItems (x :: xs) ≤ f := by
            rw [nodes_arr] at hf
            omega
          rw [List.append_assoc, List.singleton_append, List.cons_append]
          obtain ⟨c, cs0, hjc, hcne⟩ := joinComma_render_head x xs
          rw [hjc, List.cons_append,
            parseVal_succ_arr f c (cs0 ++ rbrackChar :: rest) hcne,
            ← List.cons_append, ← hjc]
          rw [ihl (x :: xs) rest (by simp) hb]
          rfl
      | obj l =>
        cases l with
        | nil =>
          rw [render_obj, canon_obj]
          rw [show sortPairs ([] : List (String × TVal)) = [] from rfl]
          show parseVal (f + 1) (lbraceChar :: rbraceChar :: rest) =
            some (.obj [], rest)
          exact parseVal_succ_objNil f rest
        | cons p tl =>
          rw [render_obj, canon_obj]
          have hsp : sortPairs (p :: tl) ≠ [] := by
            intro h
            have hl := (sortPairs_perm (p :: tl)).length_eq
            rw [h] at hl
            simp at hl
          have hbp : needPairs (sortPairs (p :: tl)) ≤ f := by
            rw [nodes_obj] at hf
            rw [needPairs_sortPairs]
            omega
          obtain ⟨q, qtl, hq⟩ := List.exists_cons_of_ne_nil hsp
          rw [List.append_assoc, List.singleton_append, List.cons_append]
          rw [hq]
          obtain ⟨cs0, hjc⟩ := joinComma_renderPair_head q qtl
          rw [hjc, List.cons_append,
            parseVal_succ_obj f quoteChar (cs0 ++ rbraceChar :: rest)
              (by decide),
            ← List.cons_append, ← hjc, ← hq]
          rw [ihp (sortPairs (p :: tl)) rest hsp hbp]
          rfl
    · intro l rest hne hfl
      cases l with
      | nil => exact absurd rfl hne
      | cons x xs =>
        cases xs with
        | nil =>
          rw [show joinComma (List.map render [x]) = render x from rfl]
          have hnx : nodes x ≤ f := by
            rw [needItems_cons] at hfl
            have h0 : needItems ([] : List TVal) = 0 := rfl
            rw [h0] at hfl
            omega
          have hg : headIsDigit (rbrackChar :: rest) = false :=
            (by decide : rbrackChar.isDigit = false)
          have hpv := ihv x (rbrackChar :: rest) hnx (fun _ _ => hg)
          exact parseItems_last f hpv
        | cons y ys =>
          simp only [List.map_cons]
          rw [joinComma]
          rw [List.append_assoc, List.cons_append]
          have hb : 1 + nodes x + needItems (y :: ys) ≤ f + 1 := by
            rw [needItems_cons] at hfl
            exact hfl
          have hnx : nodes x ≤ f := by omega
          have hrest2 : needItems (y :: ys) ≤ f := by omega
          have hg : headIsDigit (commaChar ::
              (joinComma (render y :: List.map render ys) ++
                rbrackChar :: rest)) = false :=
            (by decide : commaChar.isDigit = false)
          have hpv := ihv x (commaChar ::
            (joinComma (render y :: List.map render ys) ++
              rbrackChar :: rest)) hnx (fun _ _ => hg)
          have hitems := ihl (y :: ys) rest (by simp) hrest2
          rw [List.map_cons] at hitems
          exact parseItems_more f hpv hitems
    · intro ps rest hne hfp
      cases ps with
      | nil => exact absurd rfl hne
      | cons p tl =>
        obtain ⟨k, v⟩ := p
        cases tl with
        | nil =>
          rw [show joinComma (List.map renderPair [(k, v)]) =
            renderPair (k, v) from rfl]
          have hnv : nodes v ≤ f := by
            rw [needPairs_cons] at hfp
            dsimp only at hfp
            have h0 : needPairs ([] : List (String × TVal)) = 0 := rfl
            rw [h0] at hfp
            omega
          have hgb : headIsDigit (rbraceChar :: rest) = false :=
            (by decide : rbraceChar.isDigit = false)
          have hpv := ihv v (rbraceChar :: rest) hnv (fun _ _ => hgb)
          exact parsePairs_render_last f k v (canon v) hpv
        | cons q qtl =>
          simp only [List.map_cons]
          rw [joinComma]
          rw [List.append_assoc, List.cons_append]
          have hb : 1 + nodes v + needPairs (q :: qtl) ≤ f + 1 := by
            rw [needPairs_cons] at hfp
            dsimp only at hfp
            exact hfp
          have hnv : nodes v ≤ f := by omega
          have hrtl : needPairs (q :: qtl) ≤ f := by omega
          have hgc : headIsDigit (commaChar ::
              (joinComma (renderPair q :: List.map renderPair qtl) ++
                rbraceChar :: rest)) = false :=
            (by decide : commaChar.isDigit = false)
          have hpv := ihv v (commaChar ::
            (joinComma (renderPair q :: List.map renderPair qtl) ++
              rbraceChar :: rest)) hnv (fun _ _ => hgc)
          have hrec := ihp (q :: qtl) rest (by simp) hrtl
          rw [List.map_cons] at hrec
          exact parsePairs_render_more f k v (canon v) hpv hrec

/-- The length of a rendered entry. -/
theorem renderPair_length (p : String × TVal) :
    (renderPair p).length =
      (renderString p.1).length + 1 + (render p.2).length := by
  unfold renderPair
  simp only [List.length_append, List.length_cons]
  omega

/-- Fuel accounting for item lists against the length of their
comma-join. -/
theorem needItems_le_joinComma : ∀ (l : List TVal),
    (∀ x ∈ l, nodes x ≤ (render x).length) →
    needItems l ≤ 1 + (joinComma (l.map render)).length := by
  intro l
  induction l with
  | nil => intro _; simp [needItems, joinComma]
  | cons x xs ihx =>
    intro hmem
    rw [needItems_cons]
    cases xs with
    | nil =>
      have hx := hmem x (by simp)
      have h0 : needItems ([] : List TVal) = 0 := rfl
      rw [h0, show joinComma (List.map render [x]) = render x from rfl]
      omega
    | cons y ys =>
      have hx := hmem x (by simp)
      have hrec := ihx (fun z hz => hmem z (by simp [hz]))
      simp only [List.map_cons] at hrec ⊢
      rw [joinComma]
      simp only [List.length_append, List.length_cons]
      omega

/-- Fuel accounting for entry lists against the length of their
comma-join. -/
theorem needPairs_le_joinComma : ∀ (ps : List (String × TVal)),
    (∀ p ∈ ps, nodes p.2 ≤ (render p.2).length) →
    needPairs ps ≤ 1 + (joinComma (ps.map renderPair)).length := by
  intro ps
  induction ps with
  | nil => intro _; simp [needPairs, joinComma]
  | cons p tl ihp2 =>
    intro hmem
    rw [needPairs_cons]
    have hp := hmem p (by simp)
    have hlen := renderPair_length p
    cases tl with
    | nil =>
      have h0 : needPairs ([] : List (String × TVal)) = 0 := rfl
      rw [h0, show joinComma (List.map renderPair [p]) = renderPair p from rfl]
      omega
    | cons q qtl =>
      have hrec := ihp2 (fun z hz => hmem z (by simp [hz]))
      simp only [List.map_cons] at hrec ⊢
      rw [joinComma]
      simp only [List.length_append, List.length_cons]
      omega

/-- The parse-tree size of a value is bounded by the length of its
rendering. -/
theorem nodes_le_render_aux : ∀ (n : ℕ) (v : TVal), sizeOf v < n →
    nodes v ≤ (render v).length := by
  intro n
  induction n with
  | zero =>
    intro v h
    exact absurd h (Nat.not_lt_zero _)
  | succ m ihm =>
    intro v h
    cases v with
    | s str =>
      rw [show nodes (TVal.s str) = 1 from by rw [nodes]]
      exact List.length_pos.mpr (render_ne_nil _)
    | i k =>
      rw [show nodes (TVal.i k) = 1 from by rw [nodes]]
      exact List.length_pos.mpr (render_ne_nil _)
    | b x =>
      rw [show nodes (TVal.b x) = 1 from by rw [nodes]]
      exact List.length_pos.mpr (render_ne_nil _)
    | arr l =>
      rw [nodes_arr, render_arr]
      have harr := TVal.arr.sizeOf_spec l
      have hIH : ∀ x ∈ l, nodes x ≤ (render x).length := by
        intro x hx
        have hs := List.sizeOf_lt_of_mem hx
        exact ihm x (by omega)
      have hb := needItems_le_joinComma l hIH
      simp only [List.length_append, List.length_cons, List.length_singleton]
      omega
    | obj l =>
      rw [nodes_obj, render_obj]
      have hobj := TVal.obj.sizeOf_spec l
      have hIH : ∀ p ∈ sortPairs l, nodes p.2 ≤ (render p.2).length := by
        intro p hp
        have hmem : p ∈ l := ((sortPairs_perm l).mem_iff).mp hp
        have hs := List.sizeOf_lt_of_mem hmem
        have hsnd : sizeOf p.2 < sizeOf p := by
          obtain ⟨a, c⟩ := p
          simp only [Prod.mk.sizeOf_spec]
          omega
        exact ihm p.2 (by omega)
      have hb := needPairs_le_joinComma (sortPairs l) hIH
      rw [needPairs_sortPairs] at hb
      simp only [List.length_append, List.length_cons, List.length_singleton]
      omega

/-- The parse-tree size of a value is bounded by the length of its
rendering. -/
theorem nodes_le_render_length (v : TVal) : nodes v ≤ (render v).length :=
  nodes_le_render_aux (sizeOf v + 1) v (by omega)

/-- `JSON.parse` inverts the stable stringifier up to object-key
sorting. -/
theorem jsonParse_render (v : TVal) : jsonParse (render v) = some (canon v) := by
  unfold jsonParse
  have hmain := (parse_render_main ((render v).length + 1)).1 v []
    (by have := nodes_le_render_length v; omega) (fun _ _ => rfl)
  rw [List.append_nil] at hmain
  rw [hmain]

/-- `mapM` over `Except` only depends on the function's values on the
list. -/
theorem mapM_except_congr {α β ε : Type} (f g : α → Except ε β) :
    ∀ l : List α, (∀ x ∈ l, f x = g x) → l.mapM f = l.mapM g := by
  intro l
  induction l with
  | nil => intro _; rfl
  | cons x t ih =>
    intro h
    rw [List.mapM_cons, List.mapM_cons, h x (by simp),
      ih (fun y hy => h y (by simp [hy]))]

/-- `mapM` over `Except` succeeds pointwise. -/
theorem mapM_ok_of_forall₂ {α β ε : Type} (f : α → Except ε β) :
    ∀ {l : List α} {out : List β},
    List.Forall₂ (fun x y => f x = Except.ok y) l out →
    l.mapM f = Except.ok out := by
  intro l out h
  induction h with
  | nil => rfl
  | cons h1 _ ih =>
    rw [List.mapM_cons, h1, ih]
    rfl

/-- Pointwise `Forall₂` between two maps over the same list. -/
theorem forall₂_map_map {α β γ : Type} (R : β → γ → Prop) (f : α → β)
    (g : α → γ) :
    ∀ l : List α, (∀ x ∈ l, R (f x) (g x)) →
      List.Forall₂ R (l.map f) (l.map g) := by
  intro l
  induction l with
  | nil => intro _; exact List.Forall₂.nil
  | cons x t ih =>
    intro h
    exact List.Forall₂.cons (h x (by simp)) (ih (fun y hy => h y (by simp [hy])))

/-- A successful lookup comes from a list entry. -/
theorem pairsLookup_mem {β : Type} :
    ∀ {l : List (String × β)} {k : String} {v : β},
    pairsLookup l k = some v → (k, v) ∈ l := by
  intro l
  induction l with
  | nil =>
    intro k v h
    exact absurd h (by simp [pairsLookup])
  | cons q t ih =>
    intro k v h
    unfold pairsLookup at h
    by_cases hq : q.1 = k
    · rw [if_pos hq] at h
      injection h with h2
      subst hq
      subst h2
      simp
    · rw [if_neg hq] at h
      exact List.mem_cons_of_mem q (ih h)

/-- A listed key always looks up to something. -/
theorem pairsLookup_isSome_of_mem {β : Type} :
    ∀ {l : List (String × β)} {k : String} {v : β},
    (k, v) ∈ l → ∃ w, pairsLookup l k = some w := by
  intro l
  induction l with
  | nil =>
    intro k v h
    exact absurd h (by simp)
  | cons q t ih =>
    intro k v h
    unfold pairsLookup
    by_cases hq : q.1 = k
    · exact ⟨q.2, by rw [if_pos hq]⟩
    · rw [if_neg hq]
      rcases List.mem_cons.mp h with he | ht
      · exact absurd (by rw [← he] : q.1 = k) hq
      · exact ih ht

/-- With distinct keys, a listed entry is what lookup returns. -/
theorem pairsLookup_of_mem_nodup {β : Type} :
    ∀ {l : List (String × β)} {k : String} {v : β},
    (l.map Prod.fst).Nodup → (k, v) ∈ l → pairsLookup l k = some v := by
  intro l
  induction l with
  | nil =>
    intro k v _ h
    exact absurd h (by simp)
  | cons q t ih =>
    intro k v hnd h
    simp only [List.map_cons, List.nodup_cons] at hnd
    obtain ⟨hq1, hndt⟩ := hnd
    unfold pairsLookup
    rcases List.mem_cons.mp h with he | ht
    · rw [← he]
      simp
    · have hq : q.1 ≠ k := by
        intro heq
        apply hq1
        rw [heq]
        exact List.mem_map_of_mem Prod.fst ht
      rw [if_neg hq]
      exact ih hndt ht

/-- Lookup into a value-mapped entry list. -/
theorem pairsLookup_map_snd {β γ : Type} (g : β → γ) :
    ∀ (l : List (String × β)) (k : String),
    pairsLookup (l.map (fun p => (p.1, g p.2))) k =
      (pairsLookup l k).map g := by
  intro l
  induction l with
  | nil => intro k; rfl
  | cons q t ih =>
    intro k
    simp only [List.map_cons]
    unfold pairsLookup
    dsimp only
    by_cases hq : q.1 = k
    · rw [if_pos hq, if_pos hq]
      rfl
    · rw [if_neg hq, if_neg hq]
      exact ih k

/-- With distinct keys, lookup is invariant under permutation. -/
theorem pairsLookup_perm {β : Type} {l₁ l₂ : List (String × β)}
    (hp : l₁.Perm l₂) (hnd : (l₁.map Prod.fst).Nodup) (k : String) :
    pairsLookup l₁ k = pairsLookup l₂ k := by
  cases h2 : pairsLookup l₂ k with
  | some v =>
    exact pairsLookup_of_mem_nodup hnd ((hp.mem_iff).mpr (pairsLookup_mem h2))
  | none =>
    cases h1 : pairsLookup l₁ k with
    | none => rfl
    | some w =>
      obtain ⟨u, hu⟩ :=
        pairsLookup_isSome_of_mem ((hp.mem_iff).mp (pairsLookup_mem h1))
      rw [hu] at h2
      exact Option.noConfusion h2

/-- `canon` preserves the JS runtime type. -/
theorem jsTypeOf_canon (v : TVal) :
    jsTypeOfVal (canon v) = jsTypeOfVal v := by
  cases v <;>
    simp [canon_s, canon_i, canon_b, canon_arr, canon_obj, jsTypeOfVal]

/-- A string without NUL has no NUL among its characters. -/
theorem not_mem_of_hasNul_false {s : String} (h : hasNul s = false) :
    nulChar ∉ s.data := by
  intro hmem
  have ht : hasNul s = true := by
    unfold hasNul
    rw [List.any_eq_true]
    exact ⟨nulChar, hmem, by simp⟩
  rw [h] at ht
  exact Bool.noConfusion ht

/-- The canonical form of a well-formed value is equal to it as a JS
value (object key order irrelevant). -/
theorem canon_equiv_aux : ∀ (n : ℕ) (v : TVal), sizeOf v < n →
    TVal.WF v → TVal.Equiv (canon v) v := by
  intro n
  induction n with
  | zero =>
    intro v h _
    exact absurd h (Nat.not_lt_zero _)
  | succ m ihm =>
    intro v h hwf
    cases hwf with
    | s str =>
      rw [canon_s]
      exact TVal.Equiv.s str
    | i k =>
      rw [canon_i]
      exact TVal.Equiv.i k
    | b x =>
      rw [canon_b]
      exact TVal.Equiv.b x
    | arr hvals =>
      rename_i l
      rw [canon_arr]
      refine TVal.Equiv.arr ?_
      have harr := TVal.arr.sizeOf_spec l
      have helems : ∀ x ∈ l, TVal.Equiv (canon x) x := by
        intro x hx
        have hs := List.sizeOf_lt_of_mem hx
        exact ihm x (by omega) (hvals x hx)
      have hf := forall₂_map_map TVal.Equiv canon id l helems
      rwa [List.map_id] at hf
    | obj hnd hvals =>
      rename_i l
      rw [canon_obj]
      have hobj := TVal.obj.sizeOf_spec l
      have hnds : ((sortPairs l).map Prod.fst).Nodup :=
        (((sortPairs_perm l).map Prod.fst).nodup_iff).mpr hnd
      refine TVal.Equiv.obj ?_ ?_
      · have h1 : (((sortPairs l).map (fun p => (p.1, canon p.2))).map
            Prod.fst) = (sortPairs l).map Prod.fst := by
          simp [List.map_map, Function.comp]
        rw [h1]
        exact (sortPairs_perm l).map Prod.fst
      · intro k v₁ v₂ h₁ h₂
        rw [pairsLookup_map_snd] at h₁
        rw [pairsLookup_perm (sortPairs_perm l) hnds] at h₁
        rw [h₂] at h₁
        have h₁e : some (canon v₂) = some v₁ := h₁
        injection h₁e with hv
        rw [← hv]
        have hmem : (k, v₂) ∈ l := pairsLookup_mem h₂
        have hs := List.sizeOf_lt_of_mem hmem
        have hpair : sizeOf (k, v₂) = 1 + sizeOf k + sizeOf v₂ := by
          simp only [Prod.mk.sizeOf_spec]
        exact ihm v₂ (by omega) (hvals (k, v₂) hmem)

/-- The canonical form of a well-formed value is equal to it as a JS
value. -/
theorem canon_equiv {v : TVal} (hwf : TVal.WF v) : TVal.Equiv (canon v) v :=
  canon_equiv_aux (sizeOf v + 1) v (by omega) hwf

/-- `encodePiece` ignores a leading entry with a different name. -/
theorem encodePiece_cons_ne (attrs : List (String × AttrSpec))
    (p : String × TVal) (t : List (String × TVal)) (name : String)
    (h : p.1 ≠ name) :
    encodePiece attrs (p :: t) name = encodePiece attrs t name := by
  unfold encodePiece
  rw [show pairsLookup (p :: t) name = pairsLookup t name from by
    simp [pairsLookup, h]]

/-- A schema-conformant, NUL-free component encodes to its piece. -/
theorem encodePiece_head (attrs : List (String × AttrSpec))
    (values : List (String × TVal)) (name : String) (val : TVal)
    (a : AttrSpec)
    (hlv : pairsLookup values name = some val)
    (hla : pairsLookup attrs name = some a)
    (hty : jsTypeOfVal val = schemaToJS a.type)
    (hstr : ∀ s, val = TVal.s s → hasNul s = false) :
    encodePiece attrs values name = Except.ok (pieceOf val) := by
  unfold encodePiece
  rw [hla]
  dsimp only
  rw [hlv]
  dsimp only
  rw [show validateValueC name a (some val) = .ok (schemaToJS a.type) from by
    unfold validateValueC
    dsimp only
    rw [if_pos hty]]
  dsimp only
  by_cases hs : schemaToJS a.type = JSType.strT
  · rw [if_pos hs]
    cases val with
    | s str =>
      dsimp only
      rw [hstr str rfl]
      simp [pieceOf]
    | i k =>
      rw [hs] at hty
      simp [jsTypeOfVal] at hty
    | b x =>
      rw [hs] at hty
      simp [jsTypeOfVal] at hty
    | arr l2 =>
      rw [hs] at hty
      simp [jsTypeOfVal] at hty
    | obj l2 =>
      rw [hs] at hty
      simp [jsTypeOfVal] at hty
  · rw [if_neg hs]
    cases val with
    | s str => exact absurd hty.symm hs
    | i k => rfl
    | b x => rfl
    | arr l2 => rfl
    | obj l2 => rfl

/-- `__encodeCompoundValue`'s piece computation succeeds on a legal
component map and produces exactly the per-component pieces. -/
theorem encode_pieces_ok (attrs : List (String × AttrSpec)) :
    ∀ values : List (String × TVal),
    (values.map Prod.fst).Nodup →
    (∀ p ∈ values, ∃ a, pairsLookup attrs p.1 = some a ∧
      jsTypeOfVal p.2 = schemaToJS a.type ∧
      (∀ s, p.2 = TVal.s s → hasNul s = false)) →
    (values.map Prod.fst).mapM (encodePiece attrs values) =
      Except.ok (values.map (fun p => pieceOf p.2)) := by
  intro values
  induction values with
  | nil => intro _ _; rfl
  | cons p t ih =>
    intro hnd hcond
    simp only [List.map_cons, List.nodup_cons] at hnd
    obtain ⟨hp1, hndt⟩ := hnd
    obtain ⟨a, hla, hty, hstr⟩ := hcond p (by simp)
    simp only [List.map_cons, List.mapM_cons]
    rw [encodePiece_head attrs (p :: t) p.1 p.2 a
      (by simp [pairsLookup]) hla hty hstr]
    have hcongr : ∀ name ∈ t.map Prod.fst,
        encodePiece attrs (p :: t) name = encodePiece attrs t name := by
      intro name hname
      refine encodePiece_cons_ne attrs p t name ?_
      intro heq
      apply hp1
      rw [heq]
      exact hname
    rw [mapM_except_congr _ _ (t.map Prod.fst) hcongr]
    rw [ih hndt (fun q hq => hcond q (by simp [hq]))]
    rfl

/-- No component piece contains the NUL separator. -/
theorem pieceOf_no_nul (v : TVal)
    (h : ∀ s, v = TVal.s s → hasNul s = false) : nulChar ∉ pieceOf v := by
  cases v with
  | s str =>
    rw [show pieceOf (TVal.s str) = str.data from rfl]
    exact not_mem_of_hasNul_false (h str rfl)
  | i k => exact render_no_nul _ (TVal.i k) (le_refl _)
  | b x => exact render_no_nul _ (TVal.b x) (le_refl _)
  | arr l => exact render_no_nul _ (TVal.arr l) (le_refl _)
  | obj l => exact render_no_nul _ (TVal.obj l) (le_refl _)

/-- Decoding one encoded piece returns the canonical form of the
original component value. -/
theorem decodePiece_ok (attrs : List (String × AttrSpec)) (name : String)
    (val : TVal) (a : AttrSpec)
    (hla : pairsLookup attrs name = some a)
    (hty : jsTypeOfVal val = schemaToJS a.type) :
    decodePiece attrs name (pieceOf val) = Except.ok (name, canon val) := by
  unfold decodePiece
  rw [hla]
  dsimp only
  by_cases hs : schemaToJS a.type = JSType.strT
  · cases val with
    | s str =>
      rw [if_pos hs]
      show (match validateValueC name a (some (TVal.s str)) with
        | .error e => .error e
        | .ok _ => Except.ok (name, TVal.s str)) =
        Except.ok (name, canon (TVal.s str))
      rw [show validateValueC name a (some (TVal.s str)) =
        .ok (schemaToJS a.type) from by
          unfold validateValueC
          dsimp only
          rw [if_pos hty]]
      rw [canon_s]
    | i k =>
      rw [hs] at hty
      simp [jsTypeOfVal] at hty
    | b x =>
      rw [hs] at hty
      simp [jsTypeOfVal] at hty
    | arr l2 =>
      rw [hs] at hty
      simp [jsTypeOfVal] at hty
    | obj l2 =>
      rw [hs] at hty
      simp [jsTypeOfVal] at hty
  · have hnv : pieceOf val = render val := by
      cases val with
      | s str => exact absurd hty.symm hs
      | i k => rfl
      | b x => rfl
      | arr l2 => rfl
      | obj l2 => rfl
    rw [if_neg hs, hnv, jsonParse_render]
    dsimp only
    rw [show validateValueC name a (some (canon val)) =
      .ok (schemaToJS a.type) from by
        unfold validateValueC
        dsimp only
        rw [if_pos (show jsTypeOfVal (canon val) = schemaToJS a.type from by
          rw [jsTypeOf_canon]
          exact hty)]]

/-- `__decodeCompoundValue` inverts the piece encoding on a legal
component map, returning canonical component values in key order. -/
theorem decode_pieces_ok (attrs : List (String × AttrSpec))
    (values : List (String × TVal)) (hne : values ≠ [])
    (hcond : ∀ p ∈ values, ∃ a, pairsLookup attrs p.1 = some a ∧
      jsTypeOfVal p.2 = schemaToJS a.type ∧
      (∀ s, p.2 = TVal.s s → hasNul s = false)) :
    decodeCompoundValue attrs (values.map Prod.fst)
      (List.intercalate [nulChar] (values.map (fun p => pieceOf p.2))) =
      Except.ok (values.map (fun p => (p.1, canon p.2))) := by
  have hnonul : ∀ l ∈ values.map (fun p => pieceOf p.2), nulChar ∉ l := by
    intro l hl
    rw [List.mem_map] at hl
    obtain ⟨p, hp, hpl⟩ := hl
    obtain ⟨a, _, _, hstr⟩ := hcond p hp
    rw [← hpl]
    exact pieceOf_no_nul p.2 hstr
  have hne2 : values.map (fun p => pieceOf p.2) ≠ [] := by
    intro h
    exact hne (List.map_eq_nil_iff.mp h)
  have hsplit := List.splitOn_intercalate
    (values.map (fun p => pieceOf p.2)) nulChar hnonul hne2
  unfold decodeCompoundValue
  dsimp only
  rw [hsplit]
  rw [if_neg (by simp : ¬((values.map (fun p => pieceOf p.2)).length ≠
    (values.map Prod.fst).length))]
  rw [List.zip_map']
  refine mapM_ok_of_forall₂ _ ?_
  refine forall₂_map_map _ _ _ values ?_
  intro p hp
  obtain ⟨a, hla, hty, _⟩ := hcond p hp
  exact decodePiece_ok attrs p.1 p.2 a hla hty

/-- C1 counterexample: for a key with the single integer component `id`
holding the value 3, the encoded identifier produced by the code is the
string "3" (`pieces.join` always yields a string), not the native
numeric value 3 the specification promises. -/
theorem single_numeric_id_counterexample :
    encodedIdOfCode [(("id" : String), AttrSpec.mk SchemaType.integer false)]
      [("id" : String)] [(("id" : String), TVal.i 3)] =
      Except.ok (EncodedId.strVal (['3'] : List Char)) ∧
    encodedIdOfCode [(("id" : String), AttrSpec.mk SchemaType.integer false)]
      [("id" : String)] [(("id" : String), TVal.i 3)] ≠
      Except.ok (specSingleNumericId 3) := by
  have h3 : render (TVal.i 3) = ['3'] := by
    rw [render_i]
    decide
  have he0 : encodedIdOfCode
      [(("id" : String), AttrSpec.mk SchemaType.integer false)]
      [("id" : String)] [(("id" : String), TVal.i 3)] =
      Except.ok (EncodedId.strVal
        (List.intercalate [nulChar] [render (TVal.i 3)])) := rfl
  have h13 : List.intercalate [nulChar] [(['3'] : List Char)] = ['3'] := by
    decide
  constructor
  · rw [he0, h3, h13]
  · intro hcontra
    rw [he0, h3, h13] at hcontra
    have hcontra2 : (Except.ok (EncodedId.strVal ['3']) :
        Except CodecErr EncodedId) = Except.ok (EncodedId.numVal 3) := hcontra
    injection hcontra2 with h2
    exact EncodedId.noConfusion h2

/-- C1 (amended): for a key with a single numeric-typed (integer or
number) component holding integral value n, the encoded document
identifier is the decimal string rendering of n — a string, as
`pieces.join` always produces, never a native number. -/
theorem single_numeric_key_encodes_decimal_string (name : String)
    (a : AttrSpec) (n : Int)
    (hty : a.type = SchemaType.integer ∨ a.type = SchemaType.number) :
    encodedIdOfCode [(name, a)] [name] [(name, TVal.i n)] =
      Except.ok (EncodedId.strVal (renderInt n)) := by
  have hjs : jsTypeOfVal (TVal.i n) = schemaToJS a.type := by
    rcases hty with h | h <;> rw [h] <;> rfl
  have hp := encodePiece_head [(name, a)] [(name, TVal.i n)] name (TVal.i n) a
    (by simp [pairsLookup]) (by simp [pairsLookup]) hjs
    (fun s h => TVal.noConfusion h)
  unfold encodedIdOfCode encodeCompoundValue
  rw [show List.mapM (encodePiece [(name, a)] [(name, TVal.i n)]) [name] =
    Except.ok [pieceOf (TVal.i n)] from by rw [List.mapM_cons, hp]; rfl]
  dsimp only
  rw [show List.intercalate [nulChar] [pieceOf (TVal.i n)] =
    pieceOf (TVal.i n) from by
      show pieceOf (TVal.i n) ++ [] = pieceOf (TVal.i n)
      exact List.append_nil _]
  rw [show pieceOf (TVal.i n) = render (TVal.i n) from rfl, render_i]

/-- Witness for the amended C1 theorem at a concrete input. -/
theorem single_numeric_key_encodes_decimal_string_witness :
    encodedIdOfCode [(("id" : String), AttrSpec.mk SchemaType.integer false)]
      [("id" : String)] [(("id" : String), TVal.i 3)] =
      Except.ok (EncodedId.strVal (renderInt 3)) :=
  single_numeric_key_encodes_decimal_string ("id")
    (AttrSpec.mk SchemaType.integer false) 3 (Or.inl rfl)

/-- C2: key-codec round trip. For every attribute table and every legal
key-component map — components present with distinct names, each value
conformant to its compiled schema type, string components NUL-free,
values well-formed JS values — `__encodeCompoundValue` succeeds, and
`__decodeCompoundValue` applied to its output succeeds and returns the
same map: the same component names in the same order, each decoded value
equal to the original as a JS value (object key order irrelevant). -/
theorem key_codec_roundtrip (attrs : List (String × AttrSpec))
    (values : List (String × TVal)) (hne : values ≠ [])
    (hnd : (values.map Prod.fst).Nodup)
    (hcond : ∀ p ∈ values, ∃ a, pairsLookup attrs p.1 = some a ∧
      jsTypeOfVal p.2 = schemaToJS a.type ∧
      (∀ s, p.2 = TVal.s s → hasNul s = false) ∧ TVal.WF p.2) :
    ∃ enc, encodeCompoundValue attrs (values.map Prod.fst) values =
        Except.ok enc ∧
      decodeCompoundValue attrs (values.map Prod.fst) enc =
        Except.ok (values.map (fun p => (p.1, canon p.2))) ∧
      (values.map (fun p => (p.1, canon p.2))).map Prod.fst =
        values.map Prod.fst ∧
      List.Forall₂ (fun q p => q.1 = p.1 ∧ TVal.Equiv q.2 p.2)
        (values.map (fun p => (p.1, canon p.2))) values := by
  have hcond3 : ∀ p ∈ values, ∃ a, pairsLookup attrs p.1 = some a ∧
      jsTypeOfVal p.2 = schemaToJS a.type ∧
      (∀ s, p.2 = TVal.s s → hasNul s = false) := by
    intro p hp
    obtain ⟨a, h1, h2, h3, _⟩ := hcond p hp
    exact ⟨a, h1, h2, h3⟩
  refine ⟨List.intercalate [nulChar] (values.map (fun p => pieceOf p.2)),
    ?_, ?_, ?_, ?_⟩
  · unfold encodeCompoundValue
    rw [encode_pieces_ok attrs values hnd hcond3]
  · exact decode_pieces_ok attrs values hne hcond3
  · simp [List.map_map, Function.comp]
  · have hf := forall₂_map_map
      (fun q p => q.1 = p.1 ∧ TVal.Equiv q.2 p.2)
      (fun p => (p.1, canon p.2)) id values
      (fun p hp => ⟨rfl, canon_equiv (hcond p hp).choose_spec.2.2.2⟩)
    rwa [List.map_id] at hf

/-- Witness for the C2 round-trip theorem at a concrete two-component
key (a NUL-free string and an integer). -/
theorem key_codec_roundtrip_witness :
    ∃ enc, encodeCompoundValue
        [(("name" : String), AttrSpec.mk SchemaType.string false),
          (("id" : String), AttrSpec.mk SchemaType.integer false)]
        (([(("name" : String), TVal.s "Joe"),
          (("id" : String), TVal.i 123)]).map Prod.fst)
        [(("name" : String), TVal.s "Joe"),
          (("id" : String), TVal.i 123)] = Except.ok enc ∧
      decodeCompoundValue
        [(("name" : String), AttrSpec.mk SchemaType.string false),
          (("id" : String), AttrSpec.mk SchemaType.integer false)]
        (([(("name" : String), TVal.s "Joe"),
          (("id" : String), TVal.i 123)]).map Prod.fst) enc =
        Except.ok (([(("name" : String), TVal.s "Joe"),
          (("id" : String), TVal.i 123)]).map
            (fun p => (p.1, canon p.2))) ∧
      (([(("name" : String), TVal.s "Joe"),
        (("id" : String), TVal.i 123)]).map
          (fun p => (p.1, canon p.2))).map Prod.fst =
        ([(("name" : String), TVal.s "Joe"),
          (("id" : String), TVal.i 123)]).map Prod.fst ∧
      List.Forall₂ (fun q p => q.1 = p.1 ∧ TVal.Equiv q.2 p.2)
        (([(("name" : String), TVal.s "Joe"),
          (("id" : String), TVal.i 123)]).map (fun p => (p.1, canon p.2)))
        [(("name" : String), TVal.s "Joe"),
          (("id" : String), TVal.i 123)] := by
  refine key_codec_roundtrip _ _ (by simp) (by decide) ?_
  intro p hp
  simp only [List.mem_cons, List.not_mem_nil, or_false] at hp
  rcases hp with h | h <;> subst h
  · refine ⟨AttrSpec.mk SchemaType.string false, by decide, by decide,
      ?_, TVal.WF.s _⟩
    intro s h
    injection h with h2
    subst h2
    decide
  · refine ⟨AttrSpec.mk SchemaType.integer false, by decide, by decide,
      fun s h => TVal.noConfusion h, TVal.WF.i _⟩

/-- C3: key encoding of an object-typed component ignores the insertion
order of the object's inner keys: encoding a key map whose object value
is any permutation of the entries (with distinct inner keys, hence equal
as a map) produces the identical encoded identifier. -/
theorem encode_object_component_perm (name : String) (a : AttrSpec)
    (hty : a.type = SchemaType.object) (l₁ l₂ : List (String × TVal))
    (hperm : l₁.Perm l₂) (hnd : (l₁.map Prod.fst).Nodup) :
    encodeCompoundValue [(name, a)] [name] [(name, TVal.obj l₁)] =
      encodeCompoundValue [(name, a)] [name] [(name, TVal.obj l₂)] := by
  have hr : render (TVal.obj l₁) = render (TVal.obj l₂) := by
    rw [render_obj, render_obj, sortPairs_perm_congr l₁ l₂ hperm hnd]
  have hjs1 : jsTypeOfVal (TVal.obj l₁) = schemaToJS a.type := by
    rw [hty]
    rfl
  have hjs2 : jsTypeOfVal (TVal.obj l₂) = schemaToJS a.type := by
    rw [hty]
    rfl
  have hp1 := encodePiece_head [(name, a)] [(name, TVal.obj l₁)] name
    (TVal.obj l₁) a (by simp [pairsLookup]) (by simp [pairsLookup]) hjs1
    (fun s h => TVal.noConfusion h)
  have hp2 := encodePiece_head [(name, a)] [(name, TVal.obj l₂)] name
    (TVal.obj l₂) a (by simp [pairsLookup]) (by simp [pairsLookup]) hjs2
    (fun s h => TVal.noConfusion h)
  unfold encodeCompoundValue
  rw [show List.mapM (encodePiece [(name, a)] [(name, TVal.obj l₁)]) [name] =
    Except.ok [pieceOf (TVal.obj l₁)] from by rw [List.mapM_cons, hp1]; rfl]
  rw [show List.mapM (encodePiece [(name, a)] [(name, TVal.obj l₂)]) [name] =
    Except.ok [pieceOf (TVal.obj l₂)] from by rw [List.mapM_cons, hp2]; rfl]
  dsimp only
  rw [show pieceOf (TVal.obj l₁) = render (TVal.obj l₁) from rfl,
    show pieceOf (TVal.obj l₂) = render (TVal.obj l₂) from rfl, hr]

/-- Witness for the C3 theorem: swapping the two inner entries of an
object-typed component leaves the encoding unchanged. -/
theorem encode_object_component_perm_witness :
    encodeCompoundValue
        [(("meta" : String), AttrSpec.mk SchemaType.object false)]
        [("meta" : String)]
        [(("meta" : String),
          TVal.obj [(("b" : String), TVal.i 1),
            (("a" : String), TVal.s "x")])] =
      encodeCompoundValue
        [(("meta" : String), AttrSpec.mk SchemaType.object false)]
        [("meta" : String)]
        [(("meta" : String),
          TVal.obj [(("a" : String), TVal.s "x"),
            (("b" : String), TVal.i 1)])] :=
  encode_object_component_perm ("meta") (AttrSpec.mk SchemaType.object false)
    rfl
    [(("b" : String), TVal.i 1), (("a" : String), TVal.s "x")]
    [(("a" : String), TVal.s "x"), (("b" : String), TVal.i 1)]
    (List.Perm.swap (("a" : String), TVal.s "x")
      (("b" : String), TVal.i 1) [])
    (by decide)

end FirestoreOrm